import Mathlib

/-!
Verification of the metadata-resolution core of `aqt` (files `aqt/metadata.py`,
`aqt/commercial.py`) against its natural-language specification.

Strings are shallowly embedded as `List Char` (`Str`); Python `str` methods used
by the source (`split`, `startswith`, slicing, `int(...)` conversion) are
re-implemented below with their Python semantics.  External collaborators that
are not part of the sources under verification (the HTTP transport, the XML and
HTML parsers, the `semantic_version` library) are modelled as parameters or,
where the specification pins their behaviour, as definitions marked
`Modelled from the spec:`.
-/

/-! ## String embedding and Python string primitives -/

instance {ε α : Type} [DecidableEq ε] [DecidableEq α] : DecidableEq (Except ε α) :=
  fun x y =>
    match x, y with
    | .ok a, .ok b =>
      if h : a = b then isTrue (by rw [h]) else isFalse (fun hh => absurd (Except.ok.inj hh) h)
    | .error a, .error b =>
      if h : a = b then isTrue (by rw [h]) else isFalse (fun hh => absurd (Except.error.inj hh) h)
    | .ok a, .error b => isFalse (fun hh => Except.noConfusion hh)
    | .error a, .ok b => isFalse (fun hh => Except.noConfusion hh)

abbrev Str := List Char

def strOf (s : String) : Str := s.data

/-- Python `s.split(sep)` for a one-character separator: splits at every
occurrence, keeping empty fragments, never returning an empty list. -/
def splitOnCh (sep : Char) : Str → List Str
  | [] => [[]]
  | c :: rest =>
    match splitOnCh sep rest with
    | [] => [[]]
    | g :: gs => if c = sep then [] :: g :: gs else (c :: g) :: gs

/-- Python `s.split(", ")`: leftmost, non-overlapping scan for the two-character
separator used for `DownloadableArchives` lists. -/
def splitCommaSpace : Str → List Str
  | [] => [[]]
  | ',' :: ' ' :: rest => [] :: splitCommaSpace rest
  | c :: rest =>
    match splitCommaSpace rest with
    | [] => [[c]]
    | g :: gs => (c :: g) :: gs

/-- Python `name.split(".")[-2:]` unpacked into a pair `(second-to-last, last)`;
`none` models the `ValueError` raised when there are fewer than two fragments. -/
def lastTwoSegs (cs : Str) : Option (Str × Str) :=
  match (splitOnCh '.' cs).reverse with
  | a :: m :: _ => some (m, a)
  | _ => none

def isAsciiDigit (c : Char) : Bool := decide ('0' ≤ c) && decide (c ≤ '9')

def digitVal (c : Char) : Nat := c.toNat - 48

/-- Decimal value of a digit string (most significant first). -/
def digitsVal (cs : Str) : Nat := cs.foldl (fun a c => 10 * a + digitVal c) 0

/-- Parses a non-empty, all-ASCII-digit string to its decimal value; `none`
otherwise.  Used where Python applies `int(...)` to strings already known to
consist of decimal digits. -/
def parseDigits (cs : Str) : Option Nat :=
  if cs.isEmpty then none
  else if cs.all isAsciiDigit then some (digitsVal cs) else none

def isPyWs (c : Char) : Bool :=
  c = ' ' || c = '\t' || c = '\n' || c = '\x0d' || c = '\x0b' || c = '\x0c'

def trimWs (cs : Str) : Str :=
  ((cs.dropWhile isPyWs).reverse.dropWhile isPyWs).reverse

/-- Python `int(s)` on the fragments handled by the version decoder: surrounding
whitespace is stripped, a single leading sign is accepted, the rest must be
decimal digits.  (Digit-grouping underscores cannot occur in those fragments
because they are produced by splitting on `"_"`; non-ASCII decimal digits are
not modelled.)  `none` models `ValueError`. -/
def pyInt (cs : Str) : Option Int :=
  match trimWs cs with
  | [] => none
  | c :: rest =>
    if c = '+' then (parseDigits rest).map Int.ofNat
    else if c = '-' then (parseDigits rest).map (fun n => -(Int.ofNat n))
    else (parseDigits (c :: rest)).map Int.ofNat

/-! ## Version values

The `Version` class lives in `aqt/repository.py`, outside the sources under
verification.  Modelled from the spec: a version is
`{major, minor, patch, prerelease: optional(tag)}`, totally ordered with
`(major, minor, patch)` compared lexicographically and absence of a prerelease
sorting above presence. -/

structure Version where
  major : Nat
  minor : Nat
  patch : Nat
  prerelease : Option Str
deriving DecidableEq, Repr

def preKey : Option Str → Bool × Str
  | none => (true, [])
  | some t => (false, t)

def Version.key (v : Version) : Lex (Nat × Lex (Nat × Lex (Nat × Lex (Bool × Str)))) :=
  toLex (v.major, toLex (v.minor, toLex (v.patch, toLex (preKey v.prerelease))))

def Version.leb (a b : Version) : Bool := decide (a.key ≤ b.key)

def Version.ltb (a b : Version) : Bool := decide (a.key < b.key)

/-- Decimal digit characters of `n`, little-endian order produced, used through
`natRepChars`; the fuel argument keeps the recursion structural. -/
def natRepAux : Nat → Nat → Str
  | 0, _ => []
  | fuel + 1, n => if n = 0 then [] else natRepAux fuel (n / 10) ++ [Nat.digitChar (n % 10)]

/-- Decimal digit characters of a natural number, most significant first
(Python `str(n)` for a non-negative integer). -/
def natRepChars (n : Nat) : Str :=
  if n = 0 then ['0'] else natRepAux n n

/-! ## VersionCodec: `get_semantic_version` (aqt/metadata.py lines 98 to 159) -/

/-- Modelled from the spec: constructing a `Version` from the dotted string
`f"{major}.{minor}.{patch}"` (plus `".dev0"` when a preview) fails with
`ValueError` when a component is negative and otherwise yields the structured
version with a prerelease marker exactly when `is_preview` holds. -/
def mkFromInts (ma mi pa : Int) (is_preview : Bool) : Option Version :=
  if ma < 0 ∨ mi < 0 ∨ pa < 0 then none
  else some ⟨ma.toNat, mi.toNat, pa.toNat, if is_preview then some (strOf "dev0") else none⟩

def mkDecoded (ma mi pa : Nat) (is_preview : Bool) : Version :=
  ⟨ma, mi, pa, if is_preview then some (strOf "dev0") else none⟩

/-- Embedding of `get_semantic_version` on character lists.  Mirrors the source:
empty input fails; an underscore form is split into 2 or 3 integer parts; a
packed form must be all digits and is sliced by length; `is_preview` appends a
prerelease marker; any conversion failure yields `none`. -/
def decodeChars (cs : Str) (is_preview : Bool) : Option Version :=
  if cs = [] then none
  else if cs.contains '_' then
    match splitOnCh '_' cs with
    | [p0, p1] => do
      let ma ← pyInt p0
      let mi ← pyInt p1
      mkFromInts ma mi 0 is_preview
    | [p0, p1, p2] => do
      let ma ← pyInt p0
      let mi ← pyInt p1
      let pa ← pyInt p2
      mkFromInts ma mi pa is_preview
    | _ => none
  else if cs.any (fun c => ! isAsciiDigit c) then none
  else if 4 ≤ cs.length then do
    let ma ← parseDigits (cs.take 1)
    let mi ← parseDigits ((cs.drop 1).take 2)
    let pa ← parseDigits (cs.drop 3)
    some (mkDecoded ma mi pa is_preview)
  else if cs.length = 3 then do
    let ma ← parseDigits (cs.take 1)
    let mi ← parseDigits ((cs.drop 1).take 1)
    let pa ← parseDigits (cs.drop 2)
    some (mkDecoded ma mi pa is_preview)
  else if cs.length = 2 then do
    let ma ← parseDigits (cs.take 1)
    let mi ← parseDigits (cs.drop 1)
    some (mkDecoded ma mi 0 is_preview)
  else none

def get_semantic_version (qt_ver : String) (is_preview : Bool) : Option Version :=
  decodeChars qt_ver.data is_preview

/-- The underscore-delimited form `f"{major}_{minor}_{patch}"` of a version. -/
def underscoreForm (v : Version) : Str :=
  natRepChars v.major ++ '_' :: natRepChars v.minor ++ '_' :: natRepChars v.patch

/-! ## Generic sorting helpers

Python `sorted(...)` is modelled by an insertion sort; for the orders used here
(versions and strings, both antisymmetric total orders) any correct sort agrees
with it elementwise.  Python `sorted(set(...))` is modelled by `sortedDedup`,
which produces the strictly ascending enumeration of the distinct elements. -/

def insertLe (le : α → α → Bool) (x : α) : List α → List α
  | [] => [x]
  | y :: ys => if le x y then x :: y :: ys else y :: insertLe le x ys

def isortBy (le : α → α → Bool) : List α → List α
  | [] => []
  | x :: xs => insertLe le x (isortBy le xs)

def insDistinct [LinearOrder α] (x : α) : List α → List α
  | [] => [x]
  | y :: ys => if x = y then y :: ys else if x < y then x :: y :: ys else y :: insDistinct x ys

def sortedDedup [LinearOrder α] (l : List α) : List α := l.foldr insDistinct []

/-! ## ArchiveId and RepositoryPathBuilder (aqt/metadata.py lines 162 to 237)

The category, host and target vocabularies come from `QtRepoProperty`
(`aqt/repository.py`, outside the sources under verification); the spec fixes
the host enumeration, which is embedded as an inductive type. -/

inductive Host
  | windows
  | windows_arm64
  | linux
  | linux_arm64
  | mac
  | all_os
  | wasm_singlethread
  | wasm_multithread
deriving DecidableEq, Repr

def Host.toStr : Host → Str
  | .windows => strOf "windows"
  | .windows_arm64 => strOf "windows_arm64"
  | .linux => strOf "linux"
  | .linux_arm64 => strOf "linux_arm64"
  | .mac => strOf "mac"
  | .all_os => strOf "all_os"
  | .wasm_singlethread => strOf "wasm_singlethread"
  | .wasm_multithread => strOf "wasm_multithread"

structure ArchiveId where
  category : Str
  host : Host
  target : Str
deriving DecidableEq, Repr

def ArchiveId.is_preview (_ : ArchiveId) : Bool := false

def ArchiveId.is_tools (aid : ArchiveId) : Bool := aid.category = strOf "tools"

/-- Architecture suffix appended to the host folder in `ArchiveId.to_url`. -/
def hostSuffix (h : Host) : Str :=
  if h = .windows then strOf "_x86"
  else if h = .linux_arm64 ∨ h = .all_os ∨ h = .windows_arm64 then []
  else strOf "_x64"

def v670 : Version := ⟨6, 7, 0, none⟩

def v680 : Version := ⟨6, 8, 0, none⟩

/-- Embedding of `ArchiveId.to_url`.  The source reads `self.version`, an
attribute assigned by callers outside these sources; it is passed explicitly. -/
def ArchiveId.to_url (aid : ArchiveId) (version : Version) : Str :=
  if aid.target = strOf "desktop"
      ∧ (aid.host = .wasm_singlethread ∨ aid.host = .wasm_multithread)
      ∧ Version.leb v670 version then
    strOf "online/qtsdkrepository/all_os/wasm/"
  else
    strOf "online/qtsdkrepository/" ++ aid.host.toStr ++ hostSuffix aid.host
      ++ '/' :: aid.target ++ ['/']

/-- Embedding of `ArchiveId.to_folder`.  Python indexes `qt_version_no_dots[0]`,
which always exists for the version strings produced by the factory; `take 1`
models that single character. -/
def ArchiveId.to_folder (aid : ArchiveId) (version : Version) (qtVerNoDots : Str)
    (ext : Str) : Str :=
  let base := aid.category ++ qtVerNoDots.take 1 ++ '_' :: qtVerNoDots
  let extPart := if ext = [] then [] else '_' :: ext
  if Version.leb v680 version then base ++ '/' :: base ++ extPart else base ++ extPart

/-! ## Compact version strings: `MetadataFactory._get_qt_version_str`
(aqt/metadata.py lines 613 to 621) -/

/-- Modelled from the spec: membership in `SimpleSpec("5.9.0")` (the
`semantic_version` range library, an external capability) holds exactly for the
version 5.9.0 itself. -/
def inSpec590 (v : Version) : Bool := v = ⟨5, 9, 0, none⟩

def qt_version_str (aid : ArchiveId) (v : Version) : Str :=
  let patch :=
    if v.prerelease.isSome || aid.is_preview || inSpec590 v then []
    else natRepChars v.patch
  natRepChars v.major ++ natRepChars v.minor ++ patch

/-! ## MirrorFetcher: `MetadataFactory.fetch_http` (aqt/metadata.py lines 538
to 556)

The transport `getUrl` is an external capability; it is passed as an oracle
mapping a url to either text or a failure of one of the two kinds the source
distinguishes.  `random.choice(Settings.fallbacks)` is modelled by an explicit
index into the fallback list. -/

inductive FetchErr
  | connectionError
  | downloadError
deriving DecidableEq, Repr

/-- Python `posixpath.join(a, b)` for two components. -/
def posixJoin (a b : Str) : Str :=
  if b.head? = some '/' then b
  else if a = [] ∨ a.getLast? = some '/' then a ++ b
  else a ++ '/' :: b

/-- Embedding of `fetch_http`: the attempt sequence is the primary base url
followed by the single fallback selected by `random.choice`; the first success
returns, and when both attempts fail the second (last) error is raised. -/
def fetch_http (getUrl : Str → Except FetchErr Str) (primary : Str)
    (fallbacks : List Str) (choice : Fin fallbacks.length) (path : Str) :
    Except FetchErr Str :=
  match getUrl (posixJoin primary path) with
  | .ok t => .ok t
  | .error _ =>
    match getUrl (posixJoin (fallbacks.get choice) path) with
    | .ok t => .ok t
    | .error e => .error e

/-- The base urls actually attempted by `fetch_http`, in order. -/
def fetch_http_attempted (getUrl : Str → Except FetchErr Str) (primary : Str)
    (fallbacks : List Str) (choice : Fin fallbacks.length) (path : Str) : List Str :=
  match getUrl (posixJoin primary path) with
  | .ok _ => [primary]
  | .error _ => [primary, fallbacks.get choice]

/-! ## DirectoryIndexParser: `MetadataFactory.iterate_folders`
(aqt/metadata.py lines 558 to 586)

HTML anchor extraction (`bs4`) is an external capability
(`parseHtmlLinks(htmlText) -> sequence<hrefString>` in the spec); the model
takes the sequence of `href` attribute values, with `""` standing for a missing
attribute, exactly as `link.get("href", default="")` produces.  The functions
below embed the parts of `urllib.parse.urlparse` and `posixpath.normpath` that
`link_to_folder` consults (scheme, netloc and path); bracket validation of
IPv6 netlocs and byte/str coercion are not modelled. -/

def isSchemeChar (c : Char) : Bool :=
  c.isAlpha || c.isDigit || c = '+' || c = '-' || c = '.'

structure UrlParts where
  scheme : Str
  netloc : Str
  path : Str
deriving DecidableEq, Repr

/-- Index of the first occurrence of `c`, if any. -/
def findCh (c : Char) : Str → Option Nat
  | [] => none
  | d :: rest =>
    if d = c then some 0 else (findCh c rest).map Nat.succ

/-- Splits off the scheme as `urllib.parse.urlsplit` does: a colon must occur,
everything before it must start with an ASCII letter and consist of
scheme characters; the scheme is lower-cased. -/
def splitScheme (u : Str) : Str × Str :=
  match findCh ':' u with
  | none => ([], u)
  | some i =>
    if 0 < i ∧ (u.take i).all isSchemeChar ∧ (u.headD ' ').isAlpha then
      ((u.take i).map Char.toLower, u.drop (i + 1))
    else ([], u)

/-- Splits off the netloc when the remainder starts with `//`: the netloc runs
to the first `/`, `?` or `#`. -/
def splitNetloc (u : Str) : Str × Str :=
  match u with
  | '/' :: '/' :: rest =>
    (rest.takeWhile (fun c => c ≠ '/' ∧ c ≠ '?' ∧ c ≠ '#'),
     rest.dropWhile (fun c => c ≠ '/' ∧ c ≠ '?' ∧ c ≠ '#'))
  | _ => ([], u)

/-- Drops the params component from the last path segment, as `urlparse` does
on top of `urlsplit`. -/
def splitParamsPath (u : Str) : Str :=
  if u.contains '/' then
    let lastSeg := (u.reverse.takeWhile (fun c => c ≠ '/')).reverse
    let pre := u.take (u.length - lastSeg.length)
    if lastSeg.contains ';' then pre ++ lastSeg.takeWhile (fun c => c ≠ ';') else u
  else if u.contains ';' then u.takeWhile (fun c => c ≠ ';') else u

/-- Embedding of `urllib.parse.urlparse` restricted to the fields read by
`link_to_folder`: C0-control/space stripping and tab/CR/LF removal, then
scheme, netloc, fragment, query and params splitting. -/
def urlparseModel (raw : Str) : UrlParts :=
  let cleaned :=
    ((raw.dropWhile (fun c => c.toNat ≤ 32)).reverse.dropWhile
        (fun c => c.toNat ≤ 32)).reverse
      |>.filter (fun c => c ≠ '\t' ∧ c ≠ '\x0d' ∧ c ≠ '\n')
  let (scheme, r1) := splitScheme cleaned
  let (netloc, r2) := splitNetloc r1
  let beforeFrag := r2.takeWhile (fun c => c ≠ '#')
  let beforeQuery := beforeFrag.takeWhile (fun c => c ≠ '?')
  { scheme := scheme, netloc := netloc, path := splitParamsPath beforeQuery }

/-- Embedding of `posixpath.normpath`. -/
def normpath (p : Str) : Str :=
  if p = [] then ['.']
  else
    let initialSlashes : Nat :=
      if p.take 2 = strOf "//" ∧ p.take 3 ≠ strOf "///" then 2
      else if p.headD ' ' = '/' then 1 else 0
    let comps := splitOnCh '/' p
    let newComps := comps.foldl
      (fun acc comp =>
        if comp = [] ∨ comp = ['.'] then acc
        else if comp ≠ strOf ".." ∨ (initialSlashes = 0 ∧ acc = [])
            ∨ (acc ≠ [] ∧ acc.getLast? = some (strOf "..")) then acc ++ [comp]
        else if acc ≠ [] then acc.dropLast
        else acc)
      []
    let joined := List.intercalate (strOf "/") newComps
    let res := List.replicate initialSlashes '/' ++ joined
    if res = [] then ['.'] else res

/-- Embedding of the nested `link_to_folder` of `iterate_folders`. -/
def link_to_folder (href : Str) : Str :=
  let u := urlparseModel href
  if u.scheme ≠ [] ∨ u.netloc ≠ [] then []
  else
    let p := normpath u.path
    if p.contains '/' ∨ p = ['.'] ∨ p = strOf ".." then [] else p

/-- Embedding of the generator body of `iterate_folders` over the sequence of
anchor `href` values of the page. -/
def iterate_folders (hrefs : List Str) (filter_category : Str) : List Str :=
  match hrefs with
  | [] => []
  | h :: rest =>
    let folder := link_to_folder h
    let tl := iterate_folders rest filter_category
    if folder = [] then tl
    else
      (if filter_category.isPrefixOf folder then [folder] else [])
        ++ (if filter_category = strOf "tools" ∧ folder = strOf "sdktool"
            then [folder] else [])
        ++ tl

/-! ## Versions and `MetadataFactory.fetch_versions` (aqt/metadata.py lines 58
to 95 and 460 to 472)

`fetch_versions` maps the folder listing through `get_versions_extensions`,
filters by spec and extension, sorts, and groups consecutively by minor with
`itertools.groupby`.  The spec predicate (`semantic_version.SimpleSpec`) is an
external capability, modelled as an optional boolean predicate on versions. -/

/-- Consecutive grouping of a version list by equal minor number, as
`itertools.groupby(versions, lambda version: version.minor)` produces on the
already-sorted list. -/
def groupRuns : List Version → List (List Version)
  | [] => []
  | v :: rest =>
    match groupRuns rest with
    | [] => [[v]]
    | [] :: gs => [v] :: [] :: gs
    | (w :: g) :: gs =>
      if v.minor = w.minor then (v :: w :: g) :: gs else [v] :: (w :: g) :: gs

/-- The comprehension filter of `fetch_versions`: keep a decoded version when
it fits the spec (absent spec matches everything) and carries the requested
extension. -/
def fetch_versions_keep (specMatch : Option (Version → Bool)) (extension : Str) :
    Option Version × Str → Option Version := fun pair =>
  match pair.1 with
  | none => none
  | some v =>
    if (match specMatch with | none => true | some ok => ok v) && decide (pair.2 = extension)
    then some v else none

def fv_filtered (specMatch : Option (Version → Bool)) (extension : Str)
    (entries : List (Option Version × Str)) : List Version :=
  entries.filterMap (fetch_versions_keep specMatch extension)

/-- Embedding of `fetch_versions`, starting from the decoded
`(version, extension)` pairs that `get_versions_extensions` yields. -/
def fetch_versions (specMatch : Option (Version → Bool)) (extension : Str)
    (entries : List (Option Version × Str)) : List (List Version) :=
  groupRuns (isortBy Version.leb (fv_filtered specMatch extension entries))

/-- Embedding of `Versions.latest`: `None` when there are no groups or the
first group is empty, else the last element of the last group. -/
def versions_latest (gs : List (List Version)) : Option Version :=
  if gs.isEmpty || (gs.headD []).isEmpty then none
  else (gs.getLastD []).getLast?

/-! ## Architecture discovery: `MetadataFactory.fetch_arches`
(aqt/metadata.py lines 432 to 458)

`_fetch_module_metadata` (fetch plus XML decoding) is abstracted as an oracle
from a folder name to either the list of package names of the manifest or a
transport failure of one of the two kinds.  Only `ArchiveDownloadError` is
caught by the source; `ArchiveConnectionError` propagates. -/

inductive ArchesErr
  | fetchFailure (kind : FetchErr)
  | valueError
deriving DecidableEq, Repr

/-- The inner loop over `modules.keys()`: `ver, arch = name.split(".")[-2:]`,
collecting `arch` whenever `ver` equals the compact version string.  A name
with fewer than two fragments raises `ValueError` (uncaught in the source). -/
def collectArches (qtVerStr : Str) : List Str → Except ArchesErr (List Str)
  | [] => .ok []
  | n :: rest =>
    match lastTwoSegs n with
    | none => .error .valueError
    | some (ver, arch) => do
      let tl ← collectArches qtVerStr rest
      .ok (if ver = qtVerStr then arch :: tl else tl)

/-- Embedding of the `fetch_arches` loop over the applicable extensions. -/
def fetch_arches (fetchNames : Str → Except FetchErr (List Str))
    (aid : ArchiveId) (version : Version) : List Str → Except ArchesErr (List Str)
  | [] => .ok []
  | ext :: rest =>
    let qtVerStr := qt_version_str aid version
    match fetchNames (aid.to_folder version qtVerStr ext) with
    | .error .connectionError => .error (.fetchFailure .connectionError)
    | .error .downloadError =>
      if ext = [] then .error (.fetchFailure .downloadError)
      else fetch_arches fetchNames aid version rest
    | .ok names => do
      let here ← collectArches qtVerStr names
      let tl ← fetch_arches fetchNames aid version rest
      .ok (here ++ tl)

/-! ## ManifestResolver: `MetadataFactory.fetch_archives`
(aqt/metadata.py lines 746 to 782)

A manifest is a list of package elements; `xml_to_modules` (aqt/helper.py,
outside the sources under verification) is modelled from the spec: it keeps the
elements satisfying the predicate and indexes them by their `Name` field
(manifest names are unique, so the index is the filtered list).  The `Name`
field is present on every element here; a missing `Name` raises a list error
before any result and is not modelled separately. -/

structure PackageElement where
  name : Str
  downloads : Option (Option Str)
  updateFileSize : Option Nat
deriving DecidableEq, Repr

/-- Embedding of `MetadataFactory._has_nonempty_downloads`; `minSize` stands for
the configured `Settings.min_module_size`. -/
def hasNonemptyDownloads (minSize : Nat) (e : PackageElement) : Bool :=
  match e.downloads, e.updateFileSize with
  | some dl, some size => dl.isSome && decide (minSize ≤ size)
  | _, _ => false

/-- The `DownloadableArchives` text of an element kept by a nonempty-downloads
predicate. -/
def dlText (e : PackageElement) : Str := ((e.downloads.getD none).getD [])

inductive ArchivesErr
  | listError
  | inputError (missing : List Str)
deriving DecidableEq, Repr

/-- Embedding of the `specify_modules` predicate; `none` models the
`ValueError` of unpacking a name with fewer than two fragments. -/
def specifyModulesPred (arch : Str) (modules : List Str) (minSize : Nat)
    (e : PackageElement) : Option Bool :=
  (lastTwoSegs e.name).map fun (m, a) =>
    a = arch ∧ m ∈ modules ∧ hasNonemptyDownloads minSize e

/-- Embedding of the `all_modules` predicate. -/
def allModulesPred (arch qtVerStr : Str) (minSize : Nat)
    (e : PackageElement) : Option Bool :=
  (lastTwoSegs e.name).map fun (m, a) =>
    a = arch ∧ m ≠ qtVerStr ∧ hasNonemptyDownloads minSize e

/-- Embedding of the `no_modules` predicate (no unpacking, so total). -/
def noModulesPred (arch qtVerStr : Str) (minSize : Nat)
    (e : PackageElement) : Option Bool :=
  some ((('.' :: qtVerStr ++ '.' :: arch).isSuffixOf e.name)
    && hasNonemptyDownloads minSize e)

/-- Runs a possibly-failing predicate over the manifest, keeping the elements
on which it yields `true`; the first `ValueError` aborts, which the caller
turns into an `ArchiveListError`. -/
def filterPredE (p : PackageElement → Option Bool) :
    List PackageElement → Option (List PackageElement)
  | [] => some []
  | e :: rest => do
    let b ← p e
    let tl ← filterPredE p rest
    pure (if b then e :: tl else tl)

/-- The module fragment (`_name.split(".")[-2]`) of a kept manifest name. -/
def moduleSeg (n : Str) : Str := ((lastTwoSegs n).getD ([], [])).1

/-- Embedding of `fetch_archives` after the manifest has been fetched: predicate
selection, the completeness check over explicitly requested modules, and the
extraction of the deduplicated sorted archive name stems. -/
def fetch_archives (qtVerStr arch : Str) (modules : List Str) (minSize : Nat)
    (manifest : List PackageElement) : Except ArchivesErr (List Str) :=
  let pred :=
    if modules = [] then noModulesPred arch qtVerStr minSize
    else if strOf "all" ∈ modules then allModulesPred arch qtVerStr minSize
    else specifyModulesPred arch modules minSize
  match filterPredE pred manifest with
  | none => .error .listError
  | some kept =>
    let missing : List Str :=
      if modules ≠ [] ∧ strOf "all" ∉ modules then
        sortedDedup (modules.filter (fun m => m ∉ kept.map (fun e => moduleSeg e.name)))
      else []
    if missing ≠ [] then .error (.inputError missing)
    else
      .ok (sortedDedup (kept.flatMap
        (fun e => (splitCommaSpace (dlText e)).map
          (fun arc => arc.takeWhile (fun c => c ≠ '-')))))

/-! ## VersionSpecMatcher: `MetadataFactory.choose_highest_version_in_spec`
(aqt/metadata.py lines 490 to 511)

`Version.permissive` (aqt/repository.py) and `SimpleSpec` membership are
external capabilities, modelled as oracles: a parse function returning `none`
for `ValueError`, and a boolean spec predicate.  The attribute maps are kept
abstract; `versionOf` reads the declared `Version` attribute. -/

/-- Monadic map over `Option`, aborting at the first failure, as the
comprehension over `all_tools_data.items()` does when `Version.permissive`
raises. -/
def mapOptM (f : α → Option β) : List α → Option (List β)
  | [] => some []
  | x :: xs => do
    let b ← f x
    let tl ← mapOptM f xs
    pure (b :: tl)

def choose_highest_version_in_spec {α : Type} (parse : Str → Option Version)
    (specOk : Version → Bool) (versionOf : α → Str) (items : List (Str × α)) :
    Option α :=
  match mapOptM (fun nd => (parse (versionOf nd.2)).map (fun v => (nd.1, nd.2, v))) items with
  | none => none
  | some tv =>
    match tv.filter (fun x => specOk x.2.2) with
    | [] => none
    | x :: xs =>
      some ((xs.foldl (fun best y => if Version.ltb best.2.2 y.2.2 then y else best) x).2.1)

/-! ## QueryDispatcher tool-name normalization (aqt/metadata.py lines 381
to 395) -/

/-- Embedding of the `_tool_name` computation of `MetadataFactory.__init__` for
the tools category: names lacking the `tools_` marker are prefixed with it,
except the literal `sdktool`. -/
def normalize_tool_name (t : Str) : Str :=
  if ¬ (strOf "tools_").isPrefixOf t ∧ t ≠ strOf "sdktool" then strOf "tools_" ++ t else t

/-! ## Specification-side reformulations used in the claim statements -/

/-- The architecture suffix exactly as the claim enumerates it, host by host;
compared with the source computation in the basePath theorem. -/
def claimSuffix : Host → Str
  | .windows => strOf "_x86"
  | .linux_arm64 => []
  | .all_os => []
  | .windows_arm64 => []
  | _ => strOf "_x64"

/-- Architectures contributed by one manifest: the trailing fragment of every
name whose embedded version fragment equals the compact version string. -/
def archesOf (qtVerStr : Str) (names : List Str) : List Str :=
  names.filterMap (fun n =>
    (lastTwoSegs n).bind (fun p => if p.1 = qtVerStr then some p.2 else none))

/-- A requested module has a matching manifest entry for the requested
architecture: some element's name unpacks to `(module, arch)` and carries
nonempty downloads. -/
abbrev foundModule (arch : Str) (minSize : Nat) (manifest : List PackageElement)
    (m : Str) : Prop :=
  ∃ e ∈ manifest, lastTwoSegs e.name = some (m, arch) ∧ hasNonemptyDownloads minSize e = true

/-- The manifest elements kept by the `specify_modules` predicate. -/
def specifyKept (arch : Str) (modules : List Str) (minSize : Nat)
    (manifest : List PackageElement) : List PackageElement :=
  manifest.filter (fun e => (specifyModulesPred arch modules minSize e).getD false)

/-- The sorted set of requested modules with no kept manifest entry. -/
def specifyMissing (arch : Str) (modules : List Str) (minSize : Nat)
    (manifest : List PackageElement) : List Str :=
  sortedDedup (modules.filter (fun m =>
    m ∉ (specifyKept arch modules minSize manifest).map (fun e => moduleSeg e.name)))

/-- The deduplicated sorted archive name stems of the kept manifest records. -/
def archiveStems (kept : List PackageElement) : List Str :=
  sortedDedup (kept.flatMap (fun e =>
    (splitCommaSpace (dlText e)).map (fun arc => arc.takeWhile (fun c => c ≠ '-'))))

/-! ## Order facts for versions -/

theorem preKey_inj {x y : Option Str} (h : preKey x = preKey y) : x = y := by
  cases x <;> cases y <;> simp [preKey] at h ⊢ <;> try exact h

theorem Version.key_inj {a b : Version} (h : a.key = b.key) : a = b := by
  cases a with
  | mk ma mi pa pre =>
    cases b with
    | mk mb mib pb preb =>
      simp only [Version.key, toLex_inj, Prod.mk.injEq] at h
      obtain ⟨h1, h2, h3, h4⟩ := h
      cases preKey_inj h4
      simp [h1, h2, h3]

theorem Version.leb_total (a b : Version) : a.leb b = true ∨ b.leb a = true := by
  simp only [Version.leb, decide_eq_true_eq]
  exact le_total _ _

theorem Version.leb_trans {a b c : Version} (h1 : a.leb b = true) (h2 : b.leb c = true) :
    a.leb c = true := by
  simp only [Version.leb, decide_eq_true_eq] at h1 h2 ⊢
  exact le_trans h1 h2

theorem Version.leb_antisymm {a b : Version} (h1 : a.leb b = true) (h2 : b.leb a = true) :
    a = b := by
  simp only [Version.leb, decide_eq_true_eq] at h1 h2
  exact Version.key_inj (le_antisymm h1 h2)

theorem Version.leb_of_ltb {a b : Version} (h : a.ltb b = true) : a.leb b = true := by
  simp only [Version.ltb, decide_eq_true_eq] at h
  simp only [Version.leb, decide_eq_true_eq]
  exact le_of_lt h

theorem Version.leb_of_not_ltb {a b : Version} (h : a.ltb b = false) : b.leb a = true := by
  simp only [Version.ltb, decide_eq_false_iff_not] at h
  simp only [Version.leb, decide_eq_true_eq]
  exact not_lt.mp h

/-! ## Insertion sort lemmas -/

theorem mem_insertLe (le : α → α → Bool) (x z : α) (l : List α) :
    z ∈ insertLe le x l ↔ z = x ∨ z ∈ l := by
  induction l with
  | nil => simp [insertLe]
  | cons y ys ih =>
    simp only [insertLe]
    split
    · simp [List.mem_cons]
    · simp only [List.mem_cons, ih]
      tauto

theorem insertLe_perm (le : α → α → Bool) (x : α) (l : List α) :
    List.Perm (insertLe le x l) (x :: l) := by
  induction l with
  | nil => simp [insertLe]
  | cons y ys ih =>
    simp only [insertLe]
    split
    · exact List.Perm.refl _
    · exact ((ih.cons y).trans (List.Perm.swap x y ys))

theorem isortBy_perm (le : α → α → Bool) (l : List α) : List.Perm (isortBy le l) l := by
  induction l with
  | nil => simp [isortBy]
  | cons x xs ih => exact (insertLe_perm le x (isortBy le xs)).trans (ih.cons x)

theorem insertLe_pairwise (le : α → α → Bool)
    (htot : ∀ a b : α, le a b = true ∨ le b a = true)
    (htrans : ∀ a b c : α, le a b = true → le b c = true → le a c = true)
    (x : α) {l : List α}
    (h : List.Pairwise (fun a b => le a b = true) l) :
    List.Pairwise (fun a b => le a b = true) (insertLe le x l) := by
  induction l with
  | nil => simp [insertLe]
  | cons y ys ih =>
    simp only [insertLe]
    rcases h with _ | ⟨hy, hys⟩
    split
    · rename_i hxy
      refine List.Pairwise.cons ?_ (List.Pairwise.cons hy hys)
      intro z hz
      rcases List.mem_cons.mp hz with rfl | hz2
      · exact hxy
      · exact htrans x y z hxy (hy z hz2)
    · rename_i hxy
      refine List.Pairwise.cons ?_ (ih hys)
      intro z hz
      rcases (mem_insertLe le x z ys).mp hz with rfl | hz2
      · rcases htot y z with h2 | h2
        · exact h2
        · exact absurd h2 hxy
      · exact hy z hz2

theorem isortBy_pairwise (le : α → α → Bool)
    (htot : ∀ a b : α, le a b = true ∨ le b a = true)
    (htrans : ∀ a b c : α, le a b = true → le b c = true → le a c = true)
    (l : List α) :
    List.Pairwise (fun a b => le a b = true) (isortBy le l) := by
  induction l with
  | nil => simp [isortBy]
  | cons x xs ih => exact insertLe_pairwise le htot htrans x ih

/-! ## Lemmas about `sortedDedup` -/

theorem mem_insDistinct [LinearOrder α] (x z : α) (l : List α) :
    z ∈ insDistinct x l ↔ z = x ∨ z ∈ l := by
  induction l with
  | nil => simp [insDistinct]
  | cons y ys ih =>
    simp only [insDistinct]
    split
    · subst x
      simp only [List.mem_cons]
      tauto
    · split
      · simp [List.mem_cons]
      · simp only [List.mem_cons, ih]
        tauto

theorem insDistinct_pairwise [LinearOrder α] (x : α) {l : List α}
    (h : List.Pairwise (· < ·) l) :
    List.Pairwise (· < ·) (insDistinct x l) := by
  induction l with
  | nil => simp [insDistinct]
  | cons y ys ih =>
    simp only [insDistinct]
    rcases h with _ | ⟨hy, hys⟩
    split
    · exact List.Pairwise.cons hy hys
    · split
      · refine List.Pairwise.cons ?_ (List.Pairwise.cons hy hys)
        intro z hz
        rcases List.mem_cons.mp hz with rfl | hz2
        · assumption
        · exact lt_trans (by assumption) (hy z hz2)
      · refine List.Pairwise.cons ?_ (ih hys)
        intro z hz
        rcases (mem_insDistinct x z ys).mp hz with rfl | hz2
        · rcases lt_trichotomy y z with h2 | h2 | h2
          · exact h2
          · exact absurd h2.symm (by assumption)
          · exact absurd h2 (by assumption)
        · exact hy z hz2

theorem mem_sortedDedup [LinearOrder α] (z : α) (l : List α) :
    z ∈ sortedDedup l ↔ z ∈ l := by
  induction l with
  | nil => simp [sortedDedup]
  | cons y ys ih =>
    simp only [sortedDedup, List.foldr_cons] at *
    rw [mem_insDistinct, ih, List.mem_cons]

theorem sortedDedup_pairwise [LinearOrder α] (l : List α) :
    List.Pairwise (· < ·) (sortedDedup l) := by
  induction l with
  | nil => simp [sortedDedup]
  | cons y ys ih =>
    simp only [sortedDedup, List.foldr_cons] at *
    exact insDistinct_pairwise y ih

/-! ## Lemmas about `groupRuns` and `versions_latest` -/

theorem groupRuns_flatten (l : List Version) : (groupRuns l).flatten = l := by
  induction l with
  | nil => rfl
  | cons v rest ih =>
    cases h : groupRuns rest with
    | nil =>
      have hr : rest = [] := by rw [← ih, h]; rfl
      subst hr
      simp [groupRuns]
    | cons g gs =>
      rw [h] at ih
      cases g with
      | nil =>
        simp only [groupRuns, h, List.flatten_cons] at ih ⊢
        simp only [List.nil_append] at ih ⊢
        rw [ih]
        rfl
      | cons w g2 =>
        simp only [groupRuns, h, List.flatten_cons] at ih ⊢
        split
        · simp only [List.flatten_cons, List.cons_append, ih]
        · simp only [List.flatten_cons, List.cons_append, List.singleton_append,
            List.nil_append, ih]

theorem groupRuns_ne_nil (l : List Version) : ∀ g ∈ groupRuns l, g ≠ [] := by
  induction l with
  | nil => simp [groupRuns]
  | cons v rest ih =>
    cases h : groupRuns rest with
    | nil =>
      simp [groupRuns, h]
    | cons g gs =>
      cases g with
      | nil => exact absurd rfl (ih [] (by rw [h]; exact List.mem_cons_self _ _))
      | cons w g2 =>
        simp only [groupRuns, h]
        split
        · intro g hg
          rcases List.mem_cons.mp hg with rfl | hg2
          · simp
          · exact ih g (by rw [h]; exact List.mem_cons_of_mem _ hg2)
        · intro g hg
          rcases List.mem_cons.mp hg with rfl | hg2
          · simp
          · exact ih g (by rw [h]; exact hg2)

theorem groupRuns_minor (l : List Version) :
    ∀ g ∈ groupRuns l, ∀ a ∈ g, ∀ b ∈ g, a.minor = b.minor := by
  induction l with
  | nil => simp [groupRuns]
  | cons v rest ih =>
    cases h : groupRuns rest with
    | nil =>
      simp only [groupRuns, h]
      intro g hg a ha b hb
      rcases List.mem_singleton.mp hg with rfl
      rcases List.mem_singleton.mp ha with rfl
      rcases List.mem_singleton.mp hb with rfl
      rfl
    | cons g gs =>
      cases g with
      | nil => exact absurd rfl (groupRuns_ne_nil rest [] (by rw [h]; exact List.mem_cons_self _ _))
      | cons w g2 =>
        have hgrp : ∀ a ∈ w :: g2, ∀ b ∈ w :: g2, a.minor = b.minor :=
          fun a ha b hb => ih (w :: g2) (by rw [h]; exact List.mem_cons_self _ _) a ha b hb
        simp only [groupRuns, h]
        split
        · rename_i hvw
          intro g hg a ha b hb
          rcases List.mem_cons.mp hg with rfl | hg2
          · have key : ∀ x ∈ v :: w :: g2, x.minor = w.minor := by
              intro x hx
              rcases List.mem_cons.mp hx with rfl | hx2
              · exact hvw
              · exact hgrp x hx2 w (List.mem_cons_self _ _)
            rw [key a ha, key b hb]
          · exact ih g (by rw [h]; exact List.mem_cons_of_mem _ hg2) a ha b hb
        · intro g hg a ha b hb
          rcases List.mem_cons.mp hg with rfl | hg2
          · rcases List.mem_singleton.mp ha with rfl
            rcases List.mem_singleton.mp hb with rfl
            rfl
          · exact ih g (by rw [h]; exact hg2) a ha b hb

theorem flatten_getLast_of_ne_nil (gs : List (List Version))
    (h : ∀ g ∈ gs, g ≠ []) (hne : gs ≠ []) :
    gs.flatten.getLast? = (gs.getLastD []).getLast? := by
  induction gs with
  | nil => exact absurd rfl hne
  | cons g gs2 ih =>
    cases gs2 with
    | nil => simp
    | cons g2 gs3 =>
      have h2 : ∀ x ∈ g2 :: gs3, x ≠ [] := fun x hx => h x (List.mem_cons_of_mem _ hx)
      have ih2 := ih h2 (by simp)
      have hflat : (g2 :: gs3).flatten ≠ [] := by
        intro hec
        have : g2 ≠ [] := h2 g2 (List.mem_cons_self _ _)
        simp only [List.flatten_cons] at hec
        exact this (List.append_eq_nil.mp hec).1
      rw [List.flatten_cons, List.getLast?_append]
      cases hlast : (g2 :: gs3).flatten.getLast? with
      | none => exact absurd (List.getLast?_eq_none_iff.mp hlast) hflat
      | some z =>
        rw [hlast] at ih2
        simp only [Option.or_some]
        rw [ih2]
        simp only [List.getLastD_eq_getLast?, List.getLast?_cons_cons]

theorem versions_latest_eq (gs : List (List Version)) (h : ∀ g ∈ gs, g ≠ []) :
    versions_latest gs = gs.flatten.getLast? := by
  cases gs with
  | nil => rfl
  | cons g gs2 =>
    have hg : g ≠ [] := h g (List.mem_cons_self _ _)
    have : (g :: gs2).flatten.getLast? = ((g :: gs2).getLastD []).getLast? :=
      flatten_getLast_of_ne_nil (g :: gs2) h (by simp)
    rw [this]
    simp only [versions_latest, List.isEmpty_cons, Bool.false_or, List.headD_cons]
    rw [if_neg]
    simp only [List.isEmpty_eq_true]
    exact hg

/-! ## Digit-string lemmas for the version codec -/

theorem digitChar_isAsciiDigit {d : Nat} (h : d < 10) :
    isAsciiDigit (Nat.digitChar d) = true := by
  interval_cases d <;> decide

theorem digitVal_digitChar {d : Nat} (h : d < 10) : digitVal (Nat.digitChar d) = d := by
  interval_cases d <;> decide

theorem digit_not_ws {c : Char} (h : isAsciiDigit c = true) : isPyWs c = false := by
  cases hw : isPyWs c
  · rfl
  · exfalso
    simp only [isPyWs, Bool.or_eq_true, decide_eq_true_eq] at hw
    rcases hw with ((((rfl | rfl) | rfl) | rfl) | rfl) | rfl <;> exact absurd h (by decide)

theorem digit_ne_plus {c : Char} (h : isAsciiDigit c = true) : c ≠ '+' := by
  intro he
  rw [he] at h
  exact absurd h (by decide)

theorem digit_ne_minus {c : Char} (h : isAsciiDigit c = true) : c ≠ '-' := by
  intro he
  rw [he] at h
  exact absurd h (by decide)

theorem digit_ne_und {c : Char} (h : isAsciiDigit c = true) : c ≠ '_' := by
  intro he
  rw [he] at h
  exact absurd h (by decide)

theorem natRepAux_eq (fuel : Nat) : ∀ n : Nat, n ≤ fuel →
    natRepAux fuel n = ((Nat.digits 10 n).reverse.map Nat.digitChar) := by
  induction fuel with
  | zero =>
    intro n h
    rw [Nat.le_zero.mp h]
    simp [natRepAux]
  | succ f ih =>
    intro n h
    by_cases hn : n = 0
    · subst hn
      simp [natRepAux]
    · simp only [natRepAux, if_neg hn]
      have hdiv : n / 10 ≤ f := by
        have := Nat.div_lt_self (Nat.pos_of_ne_zero hn) (by norm_num : 1 < 10)
        omega
      rw [ih (n / 10) hdiv]
      rw [Nat.digits_def' (by norm_num : 1 < 10) (Nat.pos_of_ne_zero hn)]
      simp

theorem natRepChars_pos (n : Nat) (h : n ≠ 0) :
    natRepChars n = ((Nat.digits 10 n).reverse.map Nat.digitChar) := by
  simp only [natRepChars, if_neg h]
  exact natRepAux_eq n n le_rfl

theorem natRepChars_ne_nil (n : Nat) : natRepChars n ≠ [] := by
  by_cases h : n = 0
  · subst h
    decide
  · rw [natRepChars_pos n h]
    simp only [ne_eq, List.map_eq_nil_iff, List.reverse_eq_nil_iff]
    exact Nat.digits_ne_nil_iff_ne_zero.mpr h

theorem natRepChars_all_digits (n : Nat) : ∀ c ∈ natRepChars n, isAsciiDigit c = true := by
  by_cases h : n = 0
  · subst h
    decide
  · rw [natRepChars_pos n h]
    intro c hc
    rcases List.mem_map.mp hc with ⟨d, hd, rfl⟩
    exact digitChar_isAsciiDigit
      (Nat.digits_lt_base (by norm_num) (List.mem_reverse.mp hd))

theorem digitsVal_ofDigits (ds : List Nat) (hd : ∀ d ∈ ds, d < 10) :
    digitsVal (ds.reverse.map Nat.digitChar) = Nat.ofDigits 10 ds := by
  unfold digitsVal
  rw [List.map_reverse, List.foldl_reverse]
  induction ds with
  | nil => simp [Nat.ofDigits_nil]
  | cons d ds2 ih =>
    simp only [List.map_cons, List.foldr_cons, Nat.ofDigits_cons]
    rw [ih (fun x hx => hd x (List.mem_cons_of_mem _ hx))]
    rw [digitVal_digitChar (hd d (List.mem_cons_self _ _))]
    ring

theorem parseDigits_natRepChars (n : Nat) : parseDigits (natRepChars n) = some n := by
  by_cases h : n = 0
  · subst h
    decide
  · have hall : (natRepChars n).all isAsciiDigit = true :=
      List.all_eq_true.mpr (fun c hc => natRepChars_all_digits n c hc)
    have hne : (natRepChars n).isEmpty = false := by
      cases he : natRepChars n with
      | nil => exact absurd he (natRepChars_ne_nil n)
      | cons a l => rfl
    simp only [parseDigits, hne, hall, Bool.false_eq_true, if_false, if_true]
    rw [natRepChars_pos n h]
    rw [digitsVal_ofDigits (Nat.digits 10 n) (fun d hd => Nat.digits_lt_base (by norm_num) hd)]
    rw [Nat.ofDigits_digits]

theorem dropWhile_eq_self_of_all {p : Char → Bool} {cs : Str}
    (h : ∀ c ∈ cs, p c = false) : cs.dropWhile p = cs := by
  cases cs with
  | nil => rfl
  | cons c rest => simp [List.dropWhile_cons, h c (List.mem_cons_self _ _)]

theorem trimWs_eq_self {cs : Str} (h : ∀ c ∈ cs, isPyWs c = false) : trimWs cs = cs := by
  unfold trimWs
  rw [dropWhile_eq_self_of_all h]
  rw [dropWhile_eq_self_of_all (fun c hc => h c (List.mem_reverse.mp hc))]
  exact List.reverse_reverse cs

theorem pyInt_natRepChars (n : Nat) : pyInt (natRepChars n) = some (Int.ofNat n) := by
  have hdig := natRepChars_all_digits n
  have ht : trimWs (natRepChars n) = natRepChars n :=
    trimWs_eq_self (fun c hc => digit_not_ws (hdig c hc))
  unfold pyInt
  rw [ht]
  cases he : natRepChars n with
  | nil => exact absurd he (natRepChars_ne_nil n)
  | cons c rest =>
    have hc : isAsciiDigit c = true := by
      rw [he] at hdig
      exact hdig c (List.mem_cons_self _ _)
    show (if c = '+' then (parseDigits rest).map Int.ofNat
      else if c = '-' then (parseDigits rest).map (fun m => -(Int.ofNat m))
      else (parseDigits (c :: rest)).map Int.ofNat) = some (Int.ofNat n)
    rw [if_neg (digit_ne_plus hc), if_neg (digit_ne_minus hc)]
    rw [← he, parseDigits_natRepChars n]
    rfl

/-! ## Lemmas about `splitOnCh` -/

theorem splitOnCh_ne_nil (sep : Char) (cs : Str) : splitOnCh sep cs ≠ [] := by
  cases cs with
  | nil => simp [splitOnCh]
  | cons c rest =>
    cases h : splitOnCh sep rest with
    | nil => simp [splitOnCh, h]
    | cons g gs =>
      simp only [splitOnCh, h]
      split <;> simp

theorem splitOnCh_no_sep {sep : Char} {cs : Str} (h : ∀ c ∈ cs, c ≠ sep) :
    splitOnCh sep cs = [cs] := by
  induction cs with
  | nil => rfl
  | cons c rest ih =>
    simp only [splitOnCh]
    rw [ih (fun x hx => h x (List.mem_cons_of_mem _ hx))]
    simp [h c (List.mem_cons_self _ _)]

theorem splitOnCh_append {sep : Char} {a : Str} (h : ∀ c ∈ a, c ≠ sep) (r : Str) :
    splitOnCh sep (a ++ sep :: r) = a :: splitOnCh sep r := by
  induction a with
  | nil =>
    simp only [List.nil_append, splitOnCh]
    cases hs : splitOnCh sep r with
    | nil => exact absurd hs (splitOnCh_ne_nil sep r)
    | cons g gs => simp
  | cons c a2 ih =>
    simp only [List.cons_append, splitOnCh]
    rw [List.append_eq, ih (fun x hx => h x (List.mem_cons_of_mem _ hx))]
    simp [h c (List.mem_cons_self _ _)]

/-! ## The codec agrees on packed and underscore forms -/

theorem decode_underscoreForm (ma mi pa : Nat) (b : Bool) :
    decodeChars (natRepChars ma ++ '_' :: (natRepChars mi ++ '_' :: natRepChars pa)) b
      = some (mkDecoded ma mi pa b) := by
  have hma := natRepChars_all_digits ma
  have hmi := natRepChars_all_digits mi
  have hpa := natRepChars_all_digits pa
  have hsplit : splitOnCh '_' (natRepChars ma ++ '_' :: (natRepChars mi ++ '_' :: natRepChars pa))
      = [natRepChars ma, natRepChars mi, natRepChars pa] := by
    rw [splitOnCh_append (fun c hc => digit_ne_und (hma c hc))]
    rw [splitOnCh_append (fun c hc => digit_ne_und (hmi c hc))]
    rw [splitOnCh_no_sep (fun c hc => digit_ne_und (hpa c hc))]
  have hne : natRepChars ma ++ '_' :: (natRepChars mi ++ '_' :: natRepChars pa) ≠ [] := by
    simp
  have hcont : (natRepChars ma ++ '_' :: (natRepChars mi ++ '_' :: natRepChars pa)).contains '_'
      = true :=
    List.elem_eq_true_of_mem (by simp)
  rw [decodeChars, if_neg hne, if_pos hcont, hsplit]
  simp only [pyInt_natRepChars, Option.bind_eq_bind, Option.some_bind]
  simp [mkFromInts, mkDecoded]

theorem parseDigits_some {cs : Str} (hne : cs ≠ [])
    (h : ∀ c ∈ cs, isAsciiDigit c = true) : parseDigits (cs) = some (digitsVal cs) := by
  have he : cs.isEmpty = false := by
    cases cs with
    | nil => exact absurd rfl hne
    | cons a l => rfl
  simp only [parseDigits, he, Bool.false_eq_true, if_false]
  rw [if_pos (List.all_eq_true.mpr h)]

theorem decode_digits_shape {cs : Str} {b : Bool} {v : Version}
    (hd : ∀ c ∈ cs, isAsciiDigit c = true) (hlen : 2 ≤ cs.length)
    (hv : decodeChars cs b = some v) :
    ∃ ma mi pa, v = mkDecoded ma mi pa b := by
  have hnull : cs ≠ [] := by
    intro he
    rw [he] at hlen
    simp at hlen
  have hcont : ¬ (cs.contains '_' = true) := by
    intro hc
    exact absurd (hd '_' (List.mem_of_elem_eq_true hc)) (by decide)
  have hany : ¬ ((cs.any fun c => ! isAsciiDigit c) = true) := by
    intro ha
    rcases List.any_eq_true.mp ha with ⟨c, hc, hcc⟩
    rw [hd c hc] at hcc
    simp at hcc
  simp only [decodeChars, if_neg hnull, if_neg hcont, if_neg hany] at hv
  have t1 : cs.take 1 ≠ [] := by
    have hl : (cs.take 1).length = 1 := by
      rw [List.length_take]
      omega
    intro he
    rw [he] at hl
    simp at hl
  have e1 : parseDigits (cs.take 1) = some (digitsVal (cs.take 1)) :=
    parseDigits_some t1 (fun c hc => hd c (List.mem_of_mem_take hc))
  by_cases h4 : 4 ≤ cs.length
  · rw [if_pos h4] at hv
    have t2 : (cs.drop 1).take 2 ≠ [] := by
      have hl : ((cs.drop 1).take 2).length = 2 := by
        rw [List.length_take, List.length_drop]
        omega
      intro he
      rw [he] at hl
      simp at hl
    have t3 : cs.drop 3 ≠ [] := by
      have hl : (cs.drop 3).length = cs.length - 3 := List.length_drop 3 cs
      intro he
      rw [he] at hl
      simp only [List.length_nil] at hl
      omega
    have e2 : parseDigits ((cs.drop 1).take 2) = some (digitsVal ((cs.drop 1).take 2)) :=
      parseDigits_some t2
        (fun c hc => hd c (List.mem_of_mem_drop (List.mem_of_mem_take hc)))
    have e3 : parseDigits (cs.drop 3) = some (digitsVal (cs.drop 3)) :=
      parseDigits_some t3 (fun c hc => hd c (List.mem_of_mem_drop hc))
    rw [e1, e2, e3] at hv
    simp only [Option.bind_eq_bind, Option.some_bind] at hv
    exact ⟨_, _, _, (Option.some.inj hv).symm⟩
  · rw [if_neg h4] at hv
    by_cases h3 : cs.length = 3
    · rw [if_pos h3] at hv
      have t2 : (cs.drop 1).take 1 ≠ [] := by
        have hl : ((cs.drop 1).take 1).length = 1 := by
          rw [List.length_take, List.length_drop]
          omega
        intro he
        rw [he] at hl
        simp at hl
      have t3 : cs.drop 2 ≠ [] := by
        have hl : (cs.drop 2).length = cs.length - 2 := List.length_drop 2 cs
        intro he
        rw [he] at hl
        simp only [List.length_nil] at hl
        omega
      have e2 : parseDigits ((cs.drop 1).take 1) = some (digitsVal ((cs.drop 1).take 1)) :=
        parseDigits_some t2
          (fun c hc => hd c (List.mem_of_mem_drop (List.mem_of_mem_take hc)))
      have e3 : parseDigits (cs.drop 2) = some (digitsVal (cs.drop 2)) :=
        parseDigits_some t3 (fun c hc => hd c (List.mem_of_mem_drop hc))
      rw [e1, e2, e3] at hv
      simp only [Option.bind_eq_bind, Option.some_bind] at hv
      exact ⟨_, _, _, (Option.some.inj hv).symm⟩
    · have h2 : cs.length = 2 := by omega
      rw [if_neg h3, if_pos h2] at hv
      have t2 : cs.drop 1 ≠ [] := by
        have hl : (cs.drop 1).length = cs.length - 1 := List.length_drop 1 cs
        intro he
        rw [he] at hl
        simp only [List.length_nil] at hl
        omega
      have e2 : parseDigits (cs.drop 1) = some (digitsVal (cs.drop 1)) :=
        parseDigits_some t2 (fun c hc => hd c (List.mem_of_mem_drop hc))
      rw [e1, e2] at hv
      simp only [Option.bind_eq_bind, Option.some_bind] at hv
      exact ⟨_, _, _, (Option.some.inj hv).symm⟩

/-- claim C1: for every compact all-digit version fragment of length at least
two, decoding yields the same `Version` as decoding the underscore-delimited
form of that result; the listed literal inputs decode as stated, and the empty
string, non-digit packed input, one-character fragments and underscore input
with more than three parts all decode to `none`. -/
theorem claim_C1 :
    (∀ (cs : Str) (b : Bool) (v : Version),
      (∀ c ∈ cs, isAsciiDigit c = true) → 2 ≤ cs.length →
      decodeChars cs b = some v →
      decodeChars (underscoreForm v) b = some v)
    ∧ get_semantic_version "51212" false = some ⟨5, 12, 12, none⟩
    ∧ get_semantic_version "600" false = some ⟨6, 0, 0, none⟩
    ∧ get_semantic_version "6_7_3" false = some ⟨6, 7, 3, none⟩
    ∧ get_semantic_version "12" false = some ⟨1, 2, 0, none⟩
    ∧ get_semantic_version "" false = none
    ∧ get_semantic_version "" true = none
    ∧ get_semantic_version "abc" false = none
    ∧ get_semantic_version "5" false = none
    ∧ get_semantic_version "1_2_3_4" false = none := by
  refine ⟨?_, by decide, by decide, by decide, by decide, by decide, by decide, by decide,
    by decide, by decide⟩
  intro cs b v hd hlen hv
  obtain ⟨ma, mi, pa, rfl⟩ := decode_digits_shape hd hlen hv
  show decodeChars
    (natRepChars (mkDecoded ma mi pa b).major ++ '_' :: natRepChars (mkDecoded ma mi pa b).minor
      ++ '_' :: natRepChars (mkDecoded ma mi pa b).patch) b = some (mkDecoded ma mi pa b)
  rw [List.append_assoc, List.cons_append]
  exact decode_underscoreForm ma mi pa b

/-- Witness for claim C1: the universal fragment applied to the packed input
`51212`. -/
theorem claim_C1_witness :
    decodeChars (underscoreForm ⟨5, 12, 12, none⟩) false = some ⟨5, 12, 12, none⟩ :=
  claim_C1.1 (strOf "51212") false ⟨5, 12, 12, none⟩ (by decide) (by decide) (by decide)

/-- claim C3: the base path is a pure function of the `ArchiveId` and version:
a desktop target on a wasm host at version at least 6.7.0 maps to the flattened
`all_os/wasm` path, and every other `ArchiveId` maps to the host folder with
its architecture suffix (`_x86` for windows, none for linux_arm64, all_os and
windows_arm64, `_x64` otherwise) followed by the target. -/
theorem claim_C3 (aid : ArchiveId) (v : Version) :
    ((aid.target = strOf "desktop"
        ∧ (aid.host = Host.wasm_singlethread ∨ aid.host = Host.wasm_multithread)
        ∧ Version.leb v670 v = true) →
      aid.to_url v = strOf "online/qtsdkrepository/all_os/wasm/")
    ∧ (¬ (aid.target = strOf "desktop"
        ∧ (aid.host = Host.wasm_singlethread ∨ aid.host = Host.wasm_multithread)
        ∧ Version.leb v670 v = true) →
      aid.to_url v = strOf "online/qtsdkrepository/" ++ aid.host.toStr ++ claimSuffix aid.host
        ++ strOf "/" ++ aid.target ++ strOf "/") := by
  constructor
  · intro h
    simp only [ArchiveId.to_url, if_pos h]
  · intro h
    simp only [ArchiveId.to_url, if_neg h]
    have hs : hostSuffix aid.host = claimSuffix aid.host := by
      cases aid.host <;> rfl
    rw [hs]
    have h1 : strOf "/" = ['/'] := rfl
    rw [h1]
    simp [List.append_assoc]

/-- Witness for claim C3: a desktop wasm-host `ArchiveId` at version 6.7.0
routes to the flattened wasm path. -/
theorem claim_C3_witness :
    ArchiveId.to_url ⟨strOf "qt", Host.wasm_singlethread, strOf "desktop"⟩ v670
      = strOf "online/qtsdkrepository/all_os/wasm/" :=
  (claim_C3 ⟨strOf "qt", Host.wasm_singlethread, strOf "desktop"⟩ v670).1 (by decide)

/-- claim C7: the compact version string concatenates the major, minor and
patch digits, omitting the patch digits exactly when the version is a
prerelease, the archive id is a preview, or the version equals 5.9.0;
version 5.9.0 yields `59` and 5.9.1 yields `591`. -/
theorem claim_C7 (aid : ArchiveId) (v : Version) :
    ((v.prerelease.isSome = true ∨ aid.is_preview = true ∨ v = ⟨5, 9, 0, none⟩) →
      qt_version_str aid v = natRepChars v.major ++ natRepChars v.minor)
    ∧ (¬ (v.prerelease.isSome = true ∨ aid.is_preview = true ∨ v = ⟨5, 9, 0, none⟩) →
      qt_version_str aid v = natRepChars v.major ++ natRepChars v.minor ++ natRepChars v.patch)
    ∧ qt_version_str aid ⟨5, 9, 0, none⟩ = strOf "59"
    ∧ qt_version_str aid ⟨5, 9, 1, none⟩ = strOf "591" := by
  refine ⟨?_, ?_, rfl, rfl⟩
  · intro h
    have hb : (v.prerelease.isSome || aid.is_preview || inSpec590 v) = true := by
      rcases h with h | h | h
      · simp [h]
      · simp [h]
      · simp [inSpec590, h]
    simp only [qt_version_str, hb, if_true, List.append_nil]
  · intro h
    have h1 : v.prerelease.isSome = false := by
      cases hh : v.prerelease.isSome
      · rfl
      · exact absurd (Or.inl hh) h
    have h3 : inSpec590 v = false := by
      cases hh : inSpec590 v
      · rfl
      · exact absurd (Or.inr (Or.inr (of_decide_eq_true hh))) h
    simp only [qt_version_str, h1, h3, ArchiveId.is_preview, Bool.or_false, Bool.or_self,
      Bool.false_eq_true, if_false]

/-- Witness for claim C7: a prerelease version omits the patch digits. -/
theorem claim_C7_witness :
    qt_version_str ⟨strOf "qt", Host.linux, strOf "desktop"⟩ ⟨6, 7, 0, some (strOf "dev0")⟩
      = natRepChars 6 ++ natRepChars 7 :=
  (claim_C7 ⟨strOf "qt", Host.linux, strOf "desktop"⟩ ⟨6, 7, 0, some (strOf "dev0")⟩).1
    (Or.inl (by decide))

/-- claim C10: tool names that do not start with `tools_` and are not the
literal `sdktool` are normalized by prefixing `tools_`, so a query for `ifw`
and one for `tools_ifw` resolve the same manifest folder, while `sdktool` is
used verbatim. -/
theorem claim_C10 :
    (∀ t : Str, (strOf "tools_").isPrefixOf t = false → t ≠ strOf "sdktool" →
      normalize_tool_name t = strOf "tools_" ++ t)
    ∧ (∀ t : Str, (strOf "tools_").isPrefixOf t = true → normalize_tool_name t = t)
    ∧ (∀ t : Str, (strOf "tools_").isPrefixOf t = false → t ≠ strOf "sdktool" →
      normalize_tool_name t = normalize_tool_name (strOf "tools_" ++ t))
    ∧ normalize_tool_name (strOf "sdktool") = strOf "sdktool"
    ∧ normalize_tool_name (strOf "ifw") = normalize_tool_name (strOf "tools_ifw") := by
  have hpre : ∀ t : Str, (strOf "tools_").isPrefixOf (strOf "tools_" ++ t) = true := by
    intro t
    exact List.isPrefixOf_iff_prefix.mpr (List.prefix_append _ _)
  have h1 : ∀ t : Str, (strOf "tools_").isPrefixOf t = false → t ≠ strOf "sdktool" →
      normalize_tool_name t = strOf "tools_" ++ t := by
    intro t hp hs
    simp [normalize_tool_name, hp, hs]
  have h2 : ∀ t : Str, (strOf "tools_").isPrefixOf t = true → normalize_tool_name t = t := by
    intro t hp
    simp [normalize_tool_name, hp]
  refine ⟨h1, h2, ?_, by decide, by decide⟩
  intro t hp hs
  rw [h1 t hp hs, h2 (strOf "tools_" ++ t) (hpre t)]

/-- Witness for claim C10: normalization applied to the tool name `ifw`. -/
theorem claim_C10_witness : normalize_tool_name (strOf "ifw") = strOf "tools_" ++ strOf "ifw" :=
  claim_C10.1 (strOf "ifw") (by decide) (by decide)

/-- claim C2 (amended): the fetch first attempts the primary base url; on a
connection or download failure it retries exactly once against the single
fallback mirror drawn from the configured fallback set (the uniform-random
draw is modelled as an explicit index); a successful attempt returns its text
immediately; when both attempts fail, the last attempted host's failure is
propagated with its kind preserved. -/
theorem claim_C2 (getUrl : Str → Except FetchErr Str) (primary path : Str)
    (fallbacks : List Str) (choice : Fin fallbacks.length) :
    (∀ t, getUrl (posixJoin primary path) = .ok t →
      fetch_http getUrl primary fallbacks choice path = .ok t
        ∧ fetch_http_attempted getUrl primary fallbacks choice path = [primary])
    ∧ (∀ e t, getUrl (posixJoin primary path) = .error e →
        getUrl (posixJoin (fallbacks.get choice) path) = .ok t →
        fetch_http getUrl primary fallbacks choice path = .ok t
          ∧ fetch_http_attempted getUrl primary fallbacks choice path
              = [primary, fallbacks.get choice])
    ∧ (∀ e e2, getUrl (posixJoin primary path) = .error e →
        getUrl (posixJoin (fallbacks.get choice) path) = .error e2 →
        fetch_http getUrl primary fallbacks choice path = .error e2
          ∧ fetch_http_attempted getUrl primary fallbacks choice path
              = [primary, fallbacks.get choice])
    ∧ fallbacks.get choice ∈ fallbacks := by
  refine ⟨?_, ?_, ?_, List.get_mem fallbacks choice.1 choice.2⟩
  · intro t h
    constructor
    · simp only [fetch_http, h]
    · simp only [fetch_http_attempted, h]
  · intro e t h h2
    constructor
    · simp only [fetch_http, h, h2]
    · simp only [fetch_http_attempted, h]
  · intro e e2 h h2
    constructor
    · simp only [fetch_http, h, h2]
    · simp only [fetch_http_attempted, h]

/-- Witness for claim C2: the primary fails with a connection error and the
drawn fallback serves the content. -/
theorem claim_C2_witness :
    fetch_http
      (fun u => if u = strOf "f2/x" then Except.ok (strOf "content")
        else Except.error FetchErr.connectionError)
      (strOf "p") [strOf "f1", strOf "f2"] ⟨1, by norm_num⟩ (strOf "x")
      = Except.ok (strOf "content") :=
  ((claim_C2
      (fun u => if u = strOf "f2/x" then Except.ok (strOf "content")
        else Except.error FetchErr.connectionError)
      (strOf "p") (strOf "x") [strOf "f1", strOf "f2"] ⟨1, by norm_num⟩).2.1
    FetchErr.connectionError (strOf "content") (by decide) (by decide)).1

/-- Counterexample for claim C2 as stated: with two configured fallback
mirrors, only the single randomly drawn mirror is retried.  Here every
attempted fetch fails and the call propagates the failure, even though the
other configured fallback mirror `f2` would have served the content; `f2` is
never attempted, so the fetch does not retry once per configured fallback
mirror. -/
theorem claim_C2_counterexample :
    fetch_http
      (fun u => if u = strOf "f2/x" then Except.ok (strOf "content")
        else Except.error FetchErr.connectionError)
      (strOf "p") [strOf "f1", strOf "f2"] ⟨0, by norm_num⟩ (strOf "x")
      = Except.error FetchErr.connectionError
    ∧ (fun u => if u = strOf "f2/x" then Except.ok (strOf "content")
        else Except.error FetchErr.connectionError) (posixJoin (strOf "f2") (strOf "x"))
      = Except.ok (strOf "content")
    ∧ strOf "f2" ∈ [strOf "f1", strOf "f2"]
    ∧ strOf "f2" ∉ fetch_http_attempted
      (fun u => if u = strOf "f2/x" then Except.ok (strOf "content")
        else Except.error FetchErr.connectionError)
      (strOf "p") [strOf "f1", strOf "f2"] ⟨0, by norm_num⟩ (strOf "x") := by
  refine ⟨by decide, by decide, by decide, by decide⟩

theorem ite_nil_dot_ne_nil (l : Str) : (if l = [] then ['.'] else l) ≠ [] := by
  split
  · simp
  · rename_i h
    exact h

theorem mem_iterate_folders (filt s : Str) : ∀ hrefs : List Str,
    s ∈ iterate_folders hrefs filt ↔
      ∃ h ∈ hrefs, link_to_folder h = s ∧ s ≠ []
        ∧ (filt.isPrefixOf s = true ∨ (filt = strOf "tools" ∧ s = strOf "sdktool")) := by
  intro hrefs
  induction hrefs with
  | nil => simp [iterate_folders]
  | cons h0 rest ih =>
    simp only [iterate_folders]
    by_cases hf : link_to_folder h0 = []
    · rw [if_pos hf, ih]
      constructor
      · rintro ⟨h, hh, he⟩
        exact ⟨h, List.mem_cons_of_mem _ hh, he⟩
      · rintro ⟨h, hh, he, hne, hcase⟩
        rcases List.mem_cons.mp hh with rfl | hh2
        · exact absurd (he.symm.trans hf) hne
        · exact ⟨h, hh2, he, hne, hcase⟩
    · rw [if_neg hf]
      simp only [List.mem_append, ih]
      constructor
      · intro hs
        rcases hs with (h1 | h2) | h3
        · by_cases hp : filt.isPrefixOf (link_to_folder h0) = true
          · rw [if_pos hp] at h1
            rcases List.mem_singleton.mp h1 with rfl
            exact ⟨h0, List.mem_cons_self _ _, rfl, hf, Or.inl hp⟩
          · rw [if_neg hp] at h1
            exact absurd h1 (List.not_mem_nil s)
        · by_cases ht : filt = strOf "tools" ∧ link_to_folder h0 = strOf "sdktool"
          · rw [if_pos ht] at h2
            rcases List.mem_singleton.mp h2 with rfl
            exact ⟨h0, List.mem_cons_self _ _, rfl, hf, Or.inr ⟨ht.1, ht.2⟩⟩
          · rw [if_neg ht] at h2
            exact absurd h2 (List.not_mem_nil s)
        · rcases h3 with ⟨h, hh, he⟩
          exact ⟨h, List.mem_cons_of_mem _ hh, he⟩
      · rintro ⟨h, hh, he, hne, hcase⟩
        rcases List.mem_cons.mp hh with rfl | hh2
        · rcases hcase with hp | ⟨ht1, ht2⟩
          · left
            left
            rw [he, if_pos hp]
            exact List.mem_singleton.mpr rfl
          · left
            right
            rw [he, if_pos ⟨ht1, ht2⟩]
            exact List.mem_singleton.mpr rfl
        · right
          exact ⟨h, hh2, he, hne, hcase⟩

/-- claim C6: a link whose href carries a scheme or network location is never
yielded; a normalized path equal to `.` or `..` or containing an internal
separator is never yielded (and the normalized path is never empty); a
single-segment folder is yielded exactly when it starts with the prefix
filter, except that under the filter `tools` the literal `sdktool` is also
yielded. -/
theorem claim_C6 (hrefs : List Str) (filt : Str) :
    (∀ h : Str, ((urlparseModel h).scheme ≠ [] ∨ (urlparseModel h).netloc ≠ []) →
      link_to_folder h = [])
    ∧ (∀ h : Str,
        (normpath (urlparseModel h).path = strOf "."
          ∨ normpath (urlparseModel h).path = strOf ".."
          ∨ (normpath (urlparseModel h).path).contains '/' = true) →
      link_to_folder h = [])
    ∧ (∀ p : Str, normpath p ≠ [])
    ∧ (∀ s : Str, s ∈ iterate_folders hrefs filt ↔
        ∃ h ∈ hrefs, link_to_folder h = s ∧ s ≠ []
          ∧ (filt.isPrefixOf s = true ∨ (filt = strOf "tools" ∧ s = strOf "sdktool"))) := by
  refine ⟨?_, ?_, ?_, fun s => mem_iterate_folders filt s hrefs⟩
  · intro h hcond
    simp only [link_to_folder, if_pos hcond]
  · intro h hcond
    by_cases h1 : (urlparseModel h).scheme ≠ [] ∨ (urlparseModel h).netloc ≠ []
    · simp only [link_to_folder, if_pos h1]
    · simp only [link_to_folder, if_neg h1]
      rw [if_pos]
      rcases hcond with hc | hc | hc
      · exact Or.inr (Or.inl hc)
      · exact Or.inr (Or.inr hc)
      · exact Or.inl hc
  · intro p
    simp only [normpath]
    split
    · simp
    · exact ite_nil_dot_ne_nil _

/-- Witness for claim C6: on a concrete page, an external link and a parent
link are excluded and `sdktool` is yielded under the `tools` filter. -/
theorem claim_C6_witness :
    strOf "sdktool" ∈ iterate_folders
      [strOf "https://evil.example/x", strOf "qt6_7_0/", strOf "../", strOf "sdktool/"]
      (strOf "tools") :=
  ((claim_C6 [strOf "https://evil.example/x", strOf "qt6_7_0/", strOf "../", strOf "sdktool/"]
      (strOf "tools")).2.2.2 (strOf "sdktool")).mpr
    ⟨strOf "sdktool/", by decide, by decide, by decide, Or.inr ⟨rfl, rfl⟩⟩

/-- claim C5: the grouped version list contains exactly the spec-matching
decoded versions with the requested extension, sorted ascending overall, split
into non-empty groups of versions sharing a minor number; `latest` is the last
element of the last group (absent when empty); the literal example groups as
stated with latest 6.0.0. -/
theorem claim_C5 (specMatch : Option (Version → Bool)) (extension : Str)
    (entries : List (Option Version × Str)) :
    List.Perm (fetch_versions specMatch extension entries).flatten
      (fv_filtered specMatch extension entries)
    ∧ List.Pairwise (fun a b => Version.leb a b = true)
        (fetch_versions specMatch extension entries).flatten
    ∧ (∀ v : Version, v ∈ (fetch_versions specMatch extension entries).flatten ↔
        (some v, extension) ∈ entries
          ∧ (match specMatch with | none => true | some ok => ok v) = true)
    ∧ (∀ g ∈ fetch_versions specMatch extension entries, g ≠ [])
    ∧ (∀ g ∈ fetch_versions specMatch extension entries, ∀ a ∈ g, ∀ b ∈ g, a.minor = b.minor)
    ∧ versions_latest (fetch_versions specMatch extension entries)
        = (fetch_versions specMatch extension entries).flatten.getLast?
    ∧ fetch_versions none []
        [(some ⟨5, 12, 1, none⟩, []), (some ⟨5, 12, 0, none⟩, []),
          (some ⟨6, 0, 0, none⟩, []), (some ⟨5, 15, 0, none⟩, [])]
        = [[⟨5, 12, 0, none⟩, ⟨5, 12, 1, none⟩], [⟨5, 15, 0, none⟩], [⟨6, 0, 0, none⟩]]
    ∧ versions_latest
        [[⟨5, 12, 0, none⟩, ⟨5, 12, 1, none⟩], [⟨5, 15, 0, none⟩], [⟨6, 0, 0, none⟩]]
        = some ⟨6, 0, 0, none⟩ := by
  have hflat : (fetch_versions specMatch extension entries).flatten
      = isortBy Version.leb (fv_filtered specMatch extension entries) :=
    groupRuns_flatten _
  refine ⟨?_, ?_, ?_, groupRuns_ne_nil _, groupRuns_minor _,
    versions_latest_eq _ (groupRuns_ne_nil _), by decide, by decide⟩
  · rw [hflat]
    exact isortBy_perm _ _
  · rw [hflat]
    exact isortBy_pairwise _ Version.leb_total
      (fun a b c h1 h2 => Version.leb_trans h1 h2) _
  · intro v
    rw [hflat, (isortBy_perm Version.leb _).mem_iff]
    unfold fv_filtered
    rw [List.mem_filterMap]
    constructor
    · rintro ⟨pair, hp, hk⟩
      rcases pair with ⟨ov, ext2⟩
      cases ov with
      | none => simp [fetch_versions_keep] at hk
      | some w =>
        simp only [fetch_versions_keep] at hk
        split at hk
        · rename_i hc
          cases Option.some.inj hk
          rw [Bool.and_eq_true] at hc
          rcases hc with ⟨hs, he⟩
          rw [of_decide_eq_true he] at hp
          exact ⟨hp, hs⟩
        · exact absurd hk (by simp)
    · rintro ⟨hp, hs⟩
      refine ⟨(some v, extension), hp, ?_⟩
      simp [fetch_versions_keep, hs]

/-- Witness for claim C5: the membership characterization applied to a
one-entry listing. -/
theorem claim_C5_witness :
    (⟨6, 0, 0, none⟩ : Version) ∈ (fetch_versions none [] [(some ⟨6, 0, 0, none⟩, [])]).flatten :=
  ((claim_C5 none [] [(some ⟨6, 0, 0, none⟩, [])]).2.2.1 ⟨6, 0, 0, none⟩).mpr
    ⟨by decide, by decide⟩

/-! ## Lemmas for tool selection -/

theorem Version.leb_refl (a : Version) : a.leb a = true := by
  simp [Version.leb]

theorem mapOptM_eq_none {f : α → Option β} {l : List α}
    (h : ∃ x ∈ l, f x = none) : mapOptM f l = none := by
  induction l with
  | nil => simp at h
  | cons a l2 ih =>
    rcases h with ⟨x, hx, hfx⟩
    rcases List.mem_cons.mp hx with rfl | hx2
    · simp [mapOptM, hfx]
    · simp only [mapOptM, Option.bind_eq_bind]
      cases hfa : f a with
      | none => simp [hfa]
      | some b => simp [hfa, ih ⟨x, hx2, hfx⟩]

theorem mapOptM_isSome {f : α → Option β} {l : List α}
    (h : ∀ x ∈ l, (f x).isSome = true) : ∃ r, mapOptM f l = some r := by
  induction l with
  | nil => exact ⟨[], rfl⟩
  | cons a l2 ih =>
    rcases ih (fun x hx => h x (List.mem_cons_of_mem _ hx)) with ⟨r, hr⟩
    rcases Option.isSome_iff_exists.mp (h a (List.mem_cons_self _ _)) with ⟨b, hb⟩
    exact ⟨b :: r, by simp [mapOptM, hb, hr]⟩

theorem mapOptM_mem_of {f : α → Option β} {l : List α} {r : List β}
    (h : mapOptM f l = some r) : ∀ z ∈ r, ∃ x ∈ l, f x = some z := by
  induction l generalizing r with
  | nil =>
    simp only [mapOptM] at h
    cases Option.some.inj h
    simp
  | cons a l2 ih =>
    simp only [mapOptM, Option.bind_eq_bind] at h
    cases hfa : f a with
    | none =>
      rw [hfa] at h
      simp at h
    | some b =>
      rw [hfa] at h
      cases hm : mapOptM f l2 with
      | none =>
        rw [hm] at h
        simp at h
      | some tl =>
        rw [hm] at h
        simp only [Option.some_bind, Option.pure_def, Option.some.injEq] at h
        subst h
        intro z hz
        rcases List.mem_cons.mp hz with rfl | hz2
        · exact ⟨a, List.mem_cons_self _ _, hfa⟩
        · rcases ih hm z hz2 with ⟨x, hx, hfx⟩
          exact ⟨x, List.mem_cons_of_mem _ hx, hfx⟩

theorem mapOptM_of_mem {f : α → Option β} {l : List α} {r : List β}
    (h : mapOptM f l = some r) : ∀ x ∈ l, ∃ z ∈ r, f x = some z := by
  induction l generalizing r with
  | nil => simp
  | cons a l2 ih =>
    simp only [mapOptM, Option.bind_eq_bind] at h
    cases hfa : f a with
    | none =>
      rw [hfa] at h
      simp at h
    | some b =>
      rw [hfa] at h
      cases hm : mapOptM f l2 with
      | none =>
        rw [hm] at h
        simp at h
      | some tl =>
        rw [hm] at h
        simp only [Option.some_bind, Option.pure_def, Option.some.injEq] at h
        subst h
        intro x hx
        rcases List.mem_cons.mp hx with rfl | hx2
        · exact ⟨b, List.mem_cons_self _ _, hfa⟩
        · rcases ih hm x hx2 with ⟨z, hz, hfz⟩
          exact ⟨z, List.mem_cons_of_mem _ hz, hfz⟩

theorem foldl_max_spec {α : Type} (x : Str × α × Version) (xs : List (Str × α × Version)) :
    (xs.foldl (fun best y => if Version.ltb best.2.2 y.2.2 then y else best) x) ∈ x :: xs
      ∧ ∀ y ∈ x :: xs, Version.leb y.2.2
          (xs.foldl (fun best y => if Version.ltb best.2.2 y.2.2 then y else best) x).2.2
          = true := by
  induction xs generalizing x with
  | nil =>
    refine ⟨List.mem_cons_self _ _, ?_⟩
    intro y hy
    rcases List.mem_singleton.mp hy with rfl
    exact Version.leb_refl _
  | cons y ys ih =>
    simp only [List.foldl_cons]
    rcases ih (if Version.ltb x.2.2 y.2.2 then y else x) with ⟨ihmem, ihmax⟩
    have hstep : Version.leb x.2.2 (if Version.ltb x.2.2 y.2.2 then y else x).2.2 = true
        ∧ Version.leb y.2.2 (if Version.ltb x.2.2 y.2.2 then y else x).2.2 = true := by
      cases hxy : Version.ltb x.2.2 y.2.2 with
      | true =>
        have he : (if (true = true) then y else x) = y := if_pos rfl
        rw [he]
        exact ⟨Version.leb_of_ltb hxy, Version.leb_refl _⟩
      | false =>
        have he : (if (false = true) then y else x) = x := if_neg (by simp)
        rw [he]
        exact ⟨Version.leb_refl _, Version.leb_of_not_ltb hxy⟩
    constructor
    · rcases List.mem_cons.mp ihmem with he | hm
      · rw [he]
        split
        · exact List.mem_cons_of_mem _ (List.mem_cons_self _ _)
        · exact List.mem_cons_self _ _
      · exact List.mem_cons_of_mem _ (List.mem_cons_of_mem _ hm)
    · intro z hz
      have hbound := ihmax (if Version.ltb x.2.2 y.2.2 then y else x) (List.mem_cons_self _ _)
      rcases List.mem_cons.mp hz with rfl | hz2
      · exact Version.leb_trans hstep.1 hbound
      · rcases List.mem_cons.mp hz2 with rfl | hz3
        · exact Version.leb_trans hstep.2 hbound
        · exact ihmax z (List.mem_cons_of_mem _ hz3)

/-- claim C9: if any candidate's declared Version attribute fails permissive
parsing the whole selection returns absent; otherwise candidates are filtered
to the spec-conformant ones and the attribute map of a candidate carrying the
maximum parsed version is returned, or absent when no candidate conforms. -/
theorem claim_C9 {α : Type} (parse : Str → Option Version) (specOk : Version → Bool)
    (versionOf : α → Str) (items : List (Str × α)) :
    ((∃ nd ∈ items, parse (versionOf nd.2) = none) →
      choose_highest_version_in_spec parse specOk versionOf items = none)
    ∧ ((∀ nd ∈ items, ∀ v, parse (versionOf nd.2) = some v → specOk v = false) →
      choose_highest_version_in_spec parse specOk versionOf items = none)
    ∧ ((∀ nd ∈ items, (parse (versionOf nd.2)).isSome = true) →
      ∀ nd0 ∈ items, ∀ v0, parse (versionOf nd0.2) = some v0 → specOk v0 = true →
      ∃ nd1 v1, nd1 ∈ items
        ∧ choose_highest_version_in_spec parse specOk versionOf items = some nd1.2
        ∧ parse (versionOf nd1.2) = some v1 ∧ specOk v1 = true
        ∧ ∀ nd2 ∈ items, ∀ v2, parse (versionOf nd2.2) = some v2 → specOk v2 = true →
            Version.leb v2 v1 = true) := by
  refine ⟨?_, ?_, ?_⟩
  · rintro ⟨nd, hnd, hp⟩
    have hm : mapOptM (fun nd => (parse (versionOf nd.2)).map (fun v => (nd.1, nd.2, v))) items
        = none :=
      mapOptM_eq_none ⟨nd, hnd, by rw [hp]; rfl⟩
    simp only [choose_highest_version_in_spec, hm]
  · intro h
    cases hm : mapOptM (fun nd => (parse (versionOf nd.2)).map (fun v => (nd.1, nd.2, v))) items
      with
    | none => simp only [choose_highest_version_in_spec, hm]
    | some tv =>
      have hfil : tv.filter (fun x => specOk x.2.2) = [] := by
        rw [List.filter_eq_nil_iff]
        intro z hz
        rcases mapOptM_mem_of hm z hz with ⟨nd, hnd, hfz⟩
        rcases Option.map_eq_some'.mp hfz with ⟨v, hv, hvz⟩
        have : z.2.2 = v := by rw [← hvz]
        rw [this, h nd hnd v hv]
        simp
      simp only [choose_highest_version_in_spec, hm, hfil]
  · intro hall nd0 hnd0 v0 hv0 hs0
    have hm := mapOptM_isSome
      (f := fun nd : Str × α => (parse (versionOf nd.2)).map (fun v => (nd.1, nd.2, v)))
      (l := items)
      (fun nd hnd => by
        rcases Option.isSome_iff_exists.mp (hall nd hnd) with ⟨v, hv⟩
        simp [hv])
    rcases hm with ⟨tv, hm⟩
    have hz0 : ∃ z0 ∈ tv, z0.2.2 = v0 ∧ specOk z0.2.2 = true := by
      rcases mapOptM_of_mem hm nd0 hnd0 with ⟨z0, hz0, hfz0⟩
      rcases Option.map_eq_some'.mp hfz0 with ⟨v, hv, hvz⟩
      rw [hv0] at hv
      cases Option.some.inj hv
      refine ⟨z0, hz0, ?_, ?_⟩
      · rw [← hvz]
      · rw [← hvz]
        exact hs0
    rcases hz0 with ⟨z0, hz0mem, hz0v, hz0ok⟩
    have hz0fil : z0 ∈ tv.filter (fun x => specOk x.2.2) :=
      List.mem_filter.mpr ⟨hz0mem, hz0ok⟩
    cases hfil : tv.filter (fun x => specOk x.2.2) with
    | nil =>
      rw [hfil] at hz0fil
      exact absurd hz0fil (List.not_mem_nil z0)
    | cons x xs =>
      rcases foldl_max_spec x xs with ⟨hmem, hmax⟩
      rw [← hfil] at hmem hmax
      have hmfil := hmem
      rw [hfil] at hmfil
      rcases List.mem_filter.mp (hfil ▸ hmfil) with ⟨hmtv, hmok⟩
      rcases mapOptM_mem_of hm _ hmtv with ⟨nd1, hnd1, hfnd1⟩
      rcases Option.map_eq_some'.mp hfnd1 with ⟨v1, hv1, hvz1⟩
      refine ⟨nd1, v1, hnd1, ?_, hv1, ?_, ?_⟩
      · simp only [choose_highest_version_in_spec, hm, hfil]
        rw [← hvz1]
      · have : (xs.foldl (fun best y => if Version.ltb best.2.2 y.2.2 then y else best) x).2.2
            = v1 := by rw [← hvz1]
        rw [← this]
        exact hmok
      · intro nd2 hnd2 v2 hv2 hs2
        rcases mapOptM_of_mem hm nd2 hnd2 with ⟨z2, hz2, hfz2⟩
        rcases Option.map_eq_some'.mp hfz2 with ⟨v2b, hv2b, hvz2⟩
        rw [hv2] at hv2b
        cases Option.some.inj hv2b
        have hz2fil : z2 ∈ tv.filter (fun x => specOk x.2.2) := by
          refine List.mem_filter.mpr ⟨hz2, ?_⟩
          rw [← hvz2]
          simpa using hs2
        have := hmax z2 hz2fil
        have hv1eq : (xs.foldl (fun best y => if Version.ltb best.2.2 y.2.2 then y else best)
            x).2.2 = v1 := by rw [← hvz1]
        rw [hv1eq] at this
        have hz2v : z2.2.2 = v2 := by rw [← hvz2]
        rw [hz2v] at this
        exact this

/-- Witness for claim C9: selection among two parsed candidates returns the
one with the higher version. -/
theorem claim_C9_witness :
    ∃ nd1 v1, nd1 ∈ [(strOf "t1", strOf "1_2_3"), (strOf "t2", strOf "2_0_0")]
      ∧ choose_highest_version_in_spec (fun s => decodeChars s false) (fun _ => true)
          (fun a => a) [(strOf "t1", strOf "1_2_3"), (strOf "t2", strOf "2_0_0")]
        = some nd1.2
      ∧ (fun s => decodeChars s false) nd1.2 = some v1 ∧ (fun _ => true) v1 = true
      ∧ ∀ nd2 ∈ [(strOf "t1", strOf "1_2_3"), (strOf "t2", strOf "2_0_0")],
          ∀ v2, (fun s => decodeChars s false) nd2.2 = some v2 → (fun _ => true) v2 = true →
            Version.leb v2 v1 = true :=
  (claim_C9 (fun s => decodeChars s false) (fun _ => true) (fun a => a)
      [(strOf "t1", strOf "1_2_3"), (strOf "t2", strOf "2_0_0")]).2.2
    (by decide) (strOf "t2", strOf "2_0_0") (by decide) ⟨2, 0, 0, none⟩ (by decide) (by decide)

theorem collectArches_ok (qtVerStr : Str) (names : List Str)
    (h : ∀ n ∈ names, (lastTwoSegs n).isSome = true) :
    collectArches qtVerStr names = .ok (archesOf qtVerStr names) := by
  induction names with
  | nil => rfl
  | cons n rest ih =>
    rcases Option.isSome_iff_exists.mp (h n (List.mem_cons_self _ _)) with ⟨p, hp⟩
    rcases p with ⟨ver, arch⟩
    simp only [collectArches, hp]
    rw [ih (fun x hx => h x (List.mem_cons_of_mem _ hx))]
    have hcons : archesOf qtVerStr (n :: rest)
        = (if ver = qtVerStr then arch :: archesOf qtVerStr rest
          else archesOf qtVerStr rest) := by
      simp only [archesOf, List.filterMap_cons, hp, Option.some_bind]
      by_cases hv : ver = qtVerStr
      · simp [hv]
      · simp [hv]
    rw [hcons]
    rfl

/-- claim C8 (amended): during architecture discovery, a download failure for
a non-default extension is skipped and the operation returns the architectures
collected from every extension whose fetch succeeded; any failure for the
default (empty-suffix) extension is fatal; a connection failure is fatal for
every extension. -/
theorem claim_C8 (fetchNames : Str → Except FetchErr (List Str)) (aid : ArchiveId)
    (version : Version) (exts rest : List Str) :
    ((∀ ext ∈ exts,
        match fetchNames (aid.to_folder version (qt_version_str aid version) ext) with
        | .ok names => ∀ n ∈ names, (lastTwoSegs n).isSome = true
        | .error e => e = .downloadError ∧ ext ≠ []) →
      fetch_arches fetchNames aid version exts
        = .ok (exts.flatMap (fun ext =>
            match fetchNames (aid.to_folder version (qt_version_str aid version) ext) with
            | .ok names => archesOf (qt_version_str aid version) names
            | .error _ => [])))
    ∧ (∀ e, fetchNames (aid.to_folder version (qt_version_str aid version) []) = .error e →
        fetch_arches fetchNames aid version ([] :: rest) = .error (.fetchFailure e)) := by
  constructor
  · intro h
    induction exts with
    | nil => rfl
    | cons ext rest2 ih =>
      have hext := h ext (List.mem_cons_self _ _)
      have ih2 := ih (fun x hx => h x (List.mem_cons_of_mem _ hx))
      cases hfetch : fetchNames (aid.to_folder version (qt_version_str aid version) ext) with
      | ok names =>
        rw [hfetch] at hext
        simp only [fetch_arches, hfetch]
        rw [collectArches_ok _ names hext, ih2]
        simp only [List.flatMap_cons, hfetch]
        rfl
      | error e =>
        rw [hfetch] at hext
        rcases hext with ⟨rfl, hne⟩
        simp only [fetch_arches, hfetch]
        rw [if_neg hne]
        rw [ih2]
        simp only [List.flatMap_cons, hfetch, List.nil_append]
  · intro e he
    cases e with
    | connectionError => simp only [fetch_arches, he]
    | downloadError =>
      simp only [fetch_arches, he]
      exact if_pos trivial

/-- Witness for claim C8: the default extension succeeds, the `wasm` extension
fails with a download error and is skipped, and the collected architectures
are returned. -/
theorem claim_C8_witness :
    fetch_arches
      (fun f => if f = strOf "qt6_670" then Except.ok [strOf "qt.qt6.670.gcc_64"]
        else Except.error FetchErr.downloadError)
      ⟨strOf "qt", Host.linux, strOf "desktop"⟩ ⟨6, 7, 0, none⟩ [[], strOf "wasm"]
      = Except.ok ([[], strOf "wasm"].flatMap (fun ext =>
          match (fun f => if f = strOf "qt6_670" then Except.ok [strOf "qt.qt6.670.gcc_64"]
              else Except.error FetchErr.downloadError)
            (ArchiveId.to_folder ⟨strOf "qt", Host.linux, strOf "desktop"⟩ ⟨6, 7, 0, none⟩
              (qt_version_str ⟨strOf "qt", Host.linux, strOf "desktop"⟩ ⟨6, 7, 0, none⟩) ext) with
          | Except.ok names =>
            archesOf (qt_version_str ⟨strOf "qt", Host.linux, strOf "desktop"⟩ ⟨6, 7, 0, none⟩)
              names
          | Except.error _ => [])) :=
  (claim_C8
      (fun f => if f = strOf "qt6_670" then Except.ok [strOf "qt.qt6.670.gcc_64"]
        else Except.error FetchErr.downloadError)
      ⟨strOf "qt", Host.linux, strOf "desktop"⟩ ⟨6, 7, 0, none⟩ [[], strOf "wasm"] []).1
    (by
      intro ext hext
      rcases List.mem_cons.mp hext with rfl | hext2
      · exact (by decide :
          ∀ n ∈ [strOf "qt.qt6.670.gcc_64"], (lastTwoSegs n).isSome = true)
      · rcases List.mem_singleton.mp hext2 with rfl
        exact (⟨rfl, by decide⟩ :
          FetchErr.downloadError = FetchErr.downloadError ∧ strOf "wasm" ≠ []))

/-- Counterexample for claim C8 as stated: a connection failure on the
non-default `wasm` extension is not skipped; it aborts the discovery even
though the default extension fetch succeeded, so the operation does not return
the architectures collected from the extensions that succeeded. -/
theorem claim_C8_counterexample :
    fetch_arches
      (fun f => if f = strOf "qt6_670" then Except.ok [strOf "qt.qt6.670.gcc_64"]
        else Except.error FetchErr.connectionError)
      ⟨strOf "qt", Host.linux, strOf "desktop"⟩ ⟨6, 7, 0, none⟩ [[], strOf "wasm"]
      = Except.error (ArchesErr.fetchFailure FetchErr.connectionError)
    ∧ (fun f => if f = strOf "qt6_670" then Except.ok [strOf "qt.qt6.670.gcc_64"]
        else Except.error FetchErr.connectionError)
      (ArchiveId.to_folder ⟨strOf "qt", Host.linux, strOf "desktop"⟩ ⟨6, 7, 0, none⟩
        (qt_version_str ⟨strOf "qt", Host.linux, strOf "desktop"⟩ ⟨6, 7, 0, none⟩) [])
      = Except.ok [strOf "qt.qt6.670.gcc_64"]
    ∧ strOf "wasm" ≠ ([] : Str) := by
  refine ⟨by decide, by decide, by decide⟩

theorem filterPredE_ok {p : PackageElement → Option Bool} {l : List PackageElement}
    (h : ∀ e ∈ l, (p e).isSome = true) :
    filterPredE p l = some (l.filter (fun e => (p e).getD false)) := by
  induction l with
  | nil => rfl
  | cons e rest ih =>
    rcases Option.isSome_iff_exists.mp (h e (List.mem_cons_self _ _)) with ⟨b, hb⟩
    simp only [filterPredE, hb, Option.some_bind]
    rw [ih (fun x hx => h x (List.mem_cons_of_mem _ hx))]
    simp only [Option.some_bind, Option.pure_def, List.filter_cons, hb, Option.getD_some]
    cases b with
    | true => simp
    | false => simp


/-- claim C4: with an explicit module list (not containing `all`), archive-list
resolution fails with an input error naming exactly the sorted set of the
requested modules that have no matching manifest entry for the requested
architecture, never returning a partial result; when every requested module is
found it returns the deduplicated sorted set of prefixes obtained by splitting
each comma-separated `DownloadableArchives` entry of every matched record at
its first hyphen. -/
theorem claim_C4 (qtVerStr arch : Str) (modules : List Str) (minSize : Nat)
    (manifest : List PackageElement)
    (hmod : ¬ modules = []) (hall : strOf "all" ∉ modules)
    (hn : ∀ e ∈ manifest, (lastTwoSegs e.name).isSome = true) :
    ((∃ m ∈ modules, ¬ foundModule arch minSize manifest m) →
      ∃ ms, fetch_archives qtVerStr arch modules minSize manifest
          = .error (.inputError ms)
        ∧ (∀ x, x ∈ ms ↔ x ∈ modules ∧ ¬ foundModule arch minSize manifest x)
        ∧ List.Pairwise (fun a b : Str => a < b) ms)
    ∧ ((∀ m ∈ modules, foundModule arch minSize manifest m) →
      ∃ out, fetch_archives qtVerStr arch modules minSize manifest = .ok out
        ∧ (∀ s, s ∈ out ↔ ∃ e ∈ manifest,
            (specifyModulesPred arch modules minSize e).getD false = true
              ∧ ∃ arc ∈ splitCommaSpace (dlText e), s = arc.takeWhile (fun c => c ≠ '-'))
        ∧ List.Pairwise (fun a b : Str => a < b) out) := by
  have hsome : ∀ e ∈ manifest, (specifyModulesPred arch modules minSize e).isSome = true := by
    intro e he
    rcases Option.isSome_iff_exists.mp (hn e he) with ⟨p, hp⟩
    simp [specifyModulesPred, hp]
  have hfil : filterPredE (specifyModulesPred arch modules minSize) manifest
      = some (specifyKept arch modules minSize manifest) := filterPredE_ok hsome
  have hunfold : fetch_archives qtVerStr arch modules minSize manifest
      = (if (if modules ≠ [] ∧ strOf "all" ∉ modules
              then specifyMissing arch modules minSize manifest else []) ≠ []
        then Except.error (ArchivesErr.inputError
          (if modules ≠ [] ∧ strOf "all" ∉ modules
            then specifyMissing arch modules minSize manifest else []))
        else Except.ok (archiveStems (specifyKept arch modules minSize manifest))) := by
    simp only [fetch_archives, if_neg hmod, if_neg hall]
    rw [hfil]
    rfl
  have hcond : (if modules ≠ [] ∧ strOf "all" ∉ modules
      then specifyMissing arch modules minSize manifest else [])
      = specifyMissing arch modules minSize manifest := if_pos ⟨hmod, hall⟩
  rw [hcond] at hunfold
  have hfound : ∀ m ∈ modules,
      (m ∈ (specifyKept arch modules minSize manifest).map (fun e => moduleSeg e.name)
        ↔ foundModule arch minSize manifest m) := by
    intro m hm
    constructor
    · intro hmem
      rcases List.mem_map.mp hmem with ⟨e, hef, hms⟩
      rcases List.mem_filter.mp hef with ⟨hemem, hepred⟩
      rcases Option.isSome_iff_exists.mp (hn e hemem) with ⟨p, hp⟩
      rcases p with ⟨mo, ar⟩
      simp only [specifyModulesPred, hp, Option.map_some', Option.getD_some] at hepred
      rw [decide_eq_true_eq] at hepred
      rcases hepred with ⟨har, hmo, hne⟩
      have hseg : moduleSeg e.name = mo := by
        simp [moduleSeg, hp]
      rw [hseg] at hms
      subst hms
      subst har
      exact ⟨e, hemem, hp, hne⟩
    · rintro ⟨e, hemem, hseg, hne⟩
      refine List.mem_map.mpr ⟨e, List.mem_filter.mpr ⟨hemem, ?_⟩, ?_⟩
      · simp only [specifyModulesPred, hseg, Option.map_some', Option.getD_some]
        simp [hm, hne]
      · simp [moduleSeg, hseg]
  constructor
  · rintro ⟨m, hm, hnotfound⟩
    have hmiss : m ∈ specifyMissing arch modules minSize manifest := by
      unfold specifyMissing
      rw [mem_sortedDedup]
      refine List.mem_filter.mpr ⟨hm, ?_⟩
      simp only [decide_eq_true_eq]
      intro hc
      exact hnotfound ((hfound m hm).mp hc)
    rw [hunfold, if_pos (List.ne_nil_of_mem hmiss)]
    refine ⟨_, rfl, ?_, ?_⟩
    · intro x
      unfold specifyMissing
      rw [mem_sortedDedup, List.mem_filter]
      constructor
      · rintro ⟨hx, hnx⟩
        simp only [decide_eq_true_eq] at hnx
        exact ⟨hx, fun hf => hnx ((hfound x hx).mpr hf)⟩
      · rintro ⟨hx, hnf⟩
        refine ⟨hx, ?_⟩
        simp only [decide_eq_true_eq]
        intro hc
        exact hnf ((hfound x hx).mp hc)
    · unfold specifyMissing
      exact sortedDedup_pairwise _
  · intro hallfound
    have hempty : specifyMissing arch modules minSize manifest = [] := by
      rcases he : specifyMissing arch modules minSize manifest with _ | ⟨x, xs⟩
      · rfl
      · exfalso
        have hx : x ∈ specifyMissing arch modules minSize manifest := by
          rw [he]
          exact List.mem_cons_self _ _
        unfold specifyMissing at hx
        rw [mem_sortedDedup] at hx
        rcases List.mem_filter.mp hx with ⟨hxm, hxn⟩
        simp only [decide_eq_true_eq] at hxn
        exact hxn ((hfound x hxm).mpr (hallfound x hxm))
    rw [hunfold, hempty, if_neg (by simp)]
    refine ⟨_, rfl, ?_, ?_⟩
    · intro s
      unfold archiveStems
      rw [mem_sortedDedup, List.mem_flatMap]
      constructor
      · rintro ⟨e, hef, hse⟩
        rcases List.mem_filter.mp hef with ⟨hemem, hepred⟩
        rcases List.mem_map.mp hse with ⟨arc, harc, hsa⟩
        exact ⟨e, hemem, hepred, arc, harc, hsa.symm⟩
      · rintro ⟨e, hemem, hepred, arc, harc, hsa⟩
        refine ⟨e, List.mem_filter.mpr ⟨hemem, hepred⟩, ?_⟩
        exact List.mem_map.mpr ⟨arc, harc, hsa.symm⟩
    · unfold archiveStems
      exact sortedDedup_pairwise _

/-- Witness for claim C4: requesting `qtcharts` and `doesnotexist` against a
manifest containing only `qtcharts` fails with an input error naming exactly
`doesnotexist`. -/
theorem claim_C4_witness :
    ∃ ms, fetch_archives (strOf "5150") (strOf "gcc_64")
        [strOf "qtcharts", strOf "doesnotexist"] 0
        [⟨strOf "qt.qt5.5150.qtcharts.gcc_64", some (some (strOf "charts-a.7z, extra-b.7z")),
            some 1000⟩,
          ⟨strOf "qt.qt5.5150.gcc_64", some (some (strOf "qtbase-x.7z")), some 1000⟩]
        = .error (.inputError ms)
      ∧ (∀ x, x ∈ ms ↔ x ∈ [strOf "qtcharts", strOf "doesnotexist"]
          ∧ ¬ foundModule (strOf "gcc_64") 0
            [⟨strOf "qt.qt5.5150.qtcharts.gcc_64", some (some (strOf "charts-a.7z, extra-b.7z")),
                some 1000⟩,
              ⟨strOf "qt.qt5.5150.gcc_64", some (some (strOf "qtbase-x.7z")), some 1000⟩] x)
      ∧ List.Pairwise (fun a b : Str => a < b) ms :=
  (claim_C4 (strOf "5150") (strOf "gcc_64") [strOf "qtcharts", strOf "doesnotexist"] 0
      [⟨strOf "qt.qt5.5150.qtcharts.gcc_64", some (some (strOf "charts-a.7z, extra-b.7z")),
          some 1000⟩,
        ⟨strOf "qt.qt5.5150.gcc_64", some (some (strOf "qtbase-x.7z")), some 1000⟩]
      (by decide) (by decide) (by decide)).1 (by decide)
